import Mathlib

set_option maxHeartbeats 1000000
set_option linter.unusedTactic false
set_option linter.unusedVariables false
set_option linter.unnecessarySimpa false

namespace CfgUtils

/-- Model of a Python string: a list of characters. -/
abbrev Str := List Char

/-- Model of a parsed YAML/Python value as handled by config-utils:
scalars (null, bool, int, str), sequences, and mappings.
Mappings are insertion-ordered association lists, as Python dicts are. -/
inductive Value where
  | null : Value
  | bool : Bool → Value
  | int : Int → Value
  | str : Str → Value
  | list : List Value → Value
  | dict : List (Str × Value) → Value

mutual

/-- Structural equality test for values (used to obtain decidable equality;
the nested inductive prevents deriving it). -/
def Value.beq : Value → Value → Bool
  | .null, .null => true
  | .bool a, .bool b => a == b
  | .int a, .int b => a == b
  | .str a, .str b => a == b
  | .list xs, .list ys => Value.beqList xs ys
  | .dict d1, .dict d2 => Value.beqEntries d1 d2
  | _, _ => false

def Value.beqList : List Value → List Value → Bool
  | [], [] => true
  | x :: xs, y :: ys => Value.beq x y && Value.beqList xs ys
  | _, _ => false

def Value.beqEntries : List (Str × Value) → List (Str × Value) → Bool
  | [], [] => true
  | (k1, v1) :: r1, (k2, v2) :: r2 => k1 == k2 && Value.beq v1 v2 && Value.beqEntries r1 r2
  | _, _ => false

end

mutual

theorem Value.beq_iff : ∀ a b : Value, Value.beq a b = true ↔ a = b
  | .null, .null => by simp [Value.beq]
  | .bool a, .bool b => by simp [Value.beq]
  | .int a, .int b => by simp [Value.beq]
  | .str a, .str b => by simp [Value.beq]
  | .list xs, .list ys => by simp [Value.beq, Value.beqList_iff xs ys]
  | .dict d1, .dict d2 => by simp [Value.beq, Value.beqEntries_iff d1 d2]
  | .null, .bool _ | .null, .int _ | .null, .str _ | .null, .list _ | .null, .dict _
  | .bool _, .null | .bool _, .int _ | .bool _, .str _ | .bool _, .list _ | .bool _, .dict _
  | .int _, .null | .int _, .bool _ | .int _, .str _ | .int _, .list _ | .int _, .dict _
  | .str _, .null | .str _, .bool _ | .str _, .int _ | .str _, .list _ | .str _, .dict _
  | .list _, .null | .list _, .bool _ | .list _, .int _ | .list _, .str _ | .list _, .dict _
  | .dict _, .null | .dict _, .bool _ | .dict _, .int _ | .dict _, .str _ | .dict _, .list _ =>
    by simp [Value.beq]

theorem Value.beqList_iff : ∀ xs ys : List Value, Value.beqList xs ys = true ↔ xs = ys
  | [], [] => by simp [Value.beqList]
  | x :: xs, y :: ys => by
    simp [Value.beqList, Value.beq_iff x y, Value.beqList_iff xs ys]
  | [], _ :: _ => by simp [Value.beqList]
  | _ :: _, [] => by simp [Value.beqList]

theorem Value.beqEntries_iff :
    ∀ r1 r2 : List (Str × Value), Value.beqEntries r1 r2 = true ↔ r1 = r2
  | [], [] => by simp [Value.beqEntries]
  | (k1, v1) :: r1, (k2, v2) :: r2 => by
    simp [Value.beqEntries, Value.beq_iff v1 v2, Value.beqEntries_iff r1 r2, and_assoc,
      Prod.ext_iff]
  | [], _ :: _ => by simp [Value.beqEntries]
  | _ :: _, [] => by simp [Value.beqEntries]

end

instance : DecidableEq Value := fun a b => decidable_of_iff _ (Value.beq_iff a b)

instance : Inhabited Value := ⟨Value.null⟩

/-- A Python dict with string keys: insertion-ordered entry list. -/
abbrev Dict := List (Str × Value)

/-- Python dict lookup `d[q]` / `d.get(q)`: first matching entry. -/
def pyLookup : Dict → Str → Option Value
  | [], _ => none
  | (k, v) :: rest, q => if k = q then some v else pyLookup rest q

/-- Python dict assignment `d[k] = v`: replace in place if the key is
present, else append at the end (insertion order semantics). -/
def dictInsert : Dict → Str → Value → Dict
  | [], k, v => [(k, v)]
  | (k', v') :: rest, k, v =>
    if k' = k then (k, v) :: rest else (k', v') :: dictInsert rest k v

/-- Python `d.update(other)`: assign every entry of `other` in order. -/
def dictUpdate (d other : Dict) : Dict :=
  other.foldl (fun acc kv => dictInsert acc kv.1 kv.2) d

/-- The key list of a dict, in insertion order (`d.keys()`). -/
def dictKeys (d : Dict) : List Str := d.map (·.1)

/-- Python `str.split(sep)` for a one-character separator, on the
character list: always returns at least one (possibly empty) piece.  A
separator starts a new piece; any other character is prepended to the
first piece of the split of the remainder (which is never empty). -/
def splitSep : Str → List Str
  | [] => [[]]
  | c :: rest =>
    if c = '.' then [] :: splitSep rest
    else (c :: (splitSep rest).headI) :: (splitSep rest).tail

/-- The candidate flat key for entry `key` under path prefix `parent_key`:
Python's `f"{parent_key}{sep}{key}" if parent_key else key`. -/
def newKeyOf (parent_key key : Str) : Str :=
  if parent_key = [] then key else parent_key ++ '.' :: key

mutual

/-- The `for key, value in data.items()` loop of cli.py `flatten_dict`
(src/tools/config-utils/cli.py lines 30-48), with `items` as the
accumulator dict. -/
def flatten_items (data : Dict) (depth : Int) (parent_key : Str) (items : Dict) : Dict :=
  match data with
  | [] => items
  | (key, value) :: rest =>
    flatten_items rest depth parent_key (flatten_entry key value depth parent_key items)

/-- One iteration of the `flatten_dict` loop: bind `new_key` as-is when the
depth limit is reached, recurse into non-empty sub-mappings, and bind
scalars, lists and empty mappings directly.  The recursive call inlines
the depth-1 early return of `flatten_dict` (its guard) so that the mutual
recursion is structural; `flatten_entry_dict_cons` below restates this
call as a call to `flatten_dict` itself. -/
def flatten_entry (key : Str) (value : Value) (depth : Int) (parent_key : Str)
    (items : Dict) : Dict :=
  if depth > 0 ∧ ((splitSep (newKeyOf parent_key key)).length : Int) ≥ depth then
    dictInsert items (newKeyOf parent_key key) value
  else
    match value with
    | Value.dict [] => dictInsert items (newKeyOf parent_key key) value
    | Value.dict (e :: d) =>
      dictUpdate items
        (if depth = 1 ∧ newKeyOf parent_key key = [] then e :: d
         else flatten_items (e :: d) depth (newKeyOf parent_key key) [])
    | _ => dictInsert items (newKeyOf parent_key key) value

end

/-- Model of cli.py `flatten_dict(data, depth, parent_key, sep='.')`
(src/tools/config-utils/cli.py lines 13-48).  A parent key of `[]`
models the empty-string default. -/
def flatten_dict (data : Dict) (depth : Int) (parent_key : Str) : Dict :=
  -- Depth 1 means no flattening - just return the dict as is
  if depth = 1 ∧ parent_key = [] then data
  else flatten_items data depth parent_key []

/-- The non-empty-sub-mapping branch of `flatten_entry` is exactly the
source's `items.update(flatten_dict(value, depth, new_key, sep=sep))`. -/
theorem flatten_entry_dict_cons (key : Str) (e : Str × Value) (d : List (Str × Value))
    (depth : Int) (parent_key : Str) (items : Dict)
    (h : ¬(depth > 0 ∧ ((splitSep (newKeyOf parent_key key)).length : Int) ≥ depth)) :
    flatten_entry key (Value.dict (e :: d)) depth parent_key items =
      dictUpdate items (flatten_dict (e :: d) depth (newKeyOf parent_key key)) := by
  rw [flatten_entry, if_neg h]
  rfl

/-- One step of the `unflatten_dict` loop (cli.py lines 64-73): walk the
already-split key down the tree, creating empty sub-dicts for missing
intermediate parts, and set the final part.  Returns `none` when the walk
runs into a non-dict intermediate value, where Python raises a TypeError. -/
def insertSegs : List Str → Value → Dict → Option Dict
  | [], _, _ => none
  | [last], v, cur => some (dictInsert cur last v)
  | part :: p2 :: ps, v, cur =>
    match pyLookup cur part with
    | none =>
      match insertSegs (p2 :: ps) v [] with
      | some sub => some (dictInsert cur part (Value.dict sub))
      | none => none
    | some (Value.dict d) =>
      match insertSegs (p2 :: ps) v d with
      | some sub => some (dictInsert cur part (Value.dict sub))
      | none => none
    | some _ => none

/-- Model of cli.py `unflatten_dict(data, sep='.')` (lines 51-75): fold the
per-key insertion over the entries in order.  `none` models the TypeError
raised when a key path runs through a non-dict value. -/
def unflatten_dict (data : Dict) : Option Dict :=
  data.foldlM (fun result kv => insertSegs (splitSep kv.1) kv.2 result) []

/-- The canonical hashable form produced by cli.py `make_hashable`
(lines 108-125): dicts become key-sorted pair tuples, lists become tuples,
scalars stay themselves. -/
inductive HValue where
  | null : HValue
  | bool : Bool → HValue
  | int : Int → HValue
  | str : Str → HValue
  | tup : List HValue → HValue
  | pairs : List (Str × HValue) → HValue

mutual

/-- Structural equality test for canonical hashable values. -/
def HValue.beq : HValue → HValue → Bool
  | .null, .null => true
  | .bool a, .bool b => a == b
  | .int a, .int b => a == b
  | .str a, .str b => a == b
  | .tup xs, .tup ys => HValue.beqList xs ys
  | .pairs d1, .pairs d2 => HValue.beqEntries d1 d2
  | _, _ => false

def HValue.beqList : List HValue → List HValue → Bool
  | [], [] => true
  | x :: xs, y :: ys => HValue.beq x y && HValue.beqList xs ys
  | _, _ => false

def HValue.beqEntries : List (Str × HValue) → List (Str × HValue) → Bool
  | [], [] => true
  | (k1, v1) :: r1, (k2, v2) :: r2 => k1 == k2 && HValue.beq v1 v2 && HValue.beqEntries r1 r2
  | _, _ => false

end

mutual

theorem HValue.hbeq_iff : ∀ a b : HValue, HValue.beq a b = true ↔ a = b
  | .null, .null => by simp [HValue.beq]
  | .bool a, .bool b => by simp [HValue.beq]
  | .int a, .int b => by simp [HValue.beq]
  | .str a, .str b => by simp [HValue.beq]
  | .tup xs, .tup ys => by simp [HValue.beq, HValue.hbeqList_iff xs ys]
  | .pairs d1, .pairs d2 => by simp [HValue.beq, HValue.hbeqEntries_iff d1 d2]
  | .null, .bool _ | .null, .int _ | .null, .str _ | .null, .tup _ | .null, .pairs _
  | .bool _, .null | .bool _, .int _ | .bool _, .str _ | .bool _, .tup _ | .bool _, .pairs _
  | .int _, .null | .int _, .bool _ | .int _, .str _ | .int _, .tup _ | .int _, .pairs _
  | .str _, .null | .str _, .bool _ | .str _, .int _ | .str _, .tup _ | .str _, .pairs _
  | .tup _, .null | .tup _, .bool _ | .tup _, .int _ | .tup _, .str _ | .tup _, .pairs _
  | .pairs _, .null | .pairs _, .bool _ | .pairs _, .int _ | .pairs _, .str _
  | .pairs _, .tup _ => by simp [HValue.beq]

theorem HValue.hbeqList_iff : ∀ xs ys : List HValue, HValue.beqList xs ys = true ↔ xs = ys
  | [], [] => by simp [HValue.beqList]
  | x :: xs, y :: ys => by
    simp [HValue.beqList, HValue.hbeq_iff x y, HValue.hbeqList_iff xs ys]
  | [], _ :: _ => by simp [HValue.beqList]
  | _ :: _, [] => by simp [HValue.beqList]

theorem HValue.hbeqEntries_iff :
    ∀ r1 r2 : List (Str × HValue), HValue.beqEntries r1 r2 = true ↔ r1 = r2
  | [], [] => by simp [HValue.beqEntries]
  | (k1, v1) :: r1, (k2, v2) :: r2 => by
    simp [HValue.beqEntries, HValue.hbeq_iff v1 v2, HValue.hbeqEntries_iff r1 r2, and_assoc,
      Prod.ext_iff]
  | [], _ :: _ => by simp [HValue.beqEntries]
  | _ :: _, [] => by simp [HValue.beqEntries]

end

instance : DecidableEq HValue := fun a b => decidable_of_iff _ (HValue.hbeq_iff a b)

/-- Python string `<=` (lexicographic by code point), used to model the
key comparisons made by `sorted` inside `make_hashable`. -/
def strLe : Str → Str → Bool
  | [], _ => true
  | _ :: _, [] => false
  | a :: as, b :: bs => if a < b then true else if b < a then false else strLe as bs

/-- Stable insertion of one pair into a key-sorted pair list. -/
def sortInsert (p : Str × HValue) : List (Str × HValue) → List (Str × HValue)
  | [] => [p]
  | q :: rest => if strLe p.1 q.1 then p :: q :: rest else q :: sortInsert p rest

/-- Model of Python `sorted` on (key, hashable-value) pairs.  Dict keys are
unique, so Python's sort only ever compares the keys; a stable insertion
sort by key is an exact model on such inputs. -/
def pySorted : List (Str × HValue) → List (Str × HValue)
  | [] => []
  | p :: rest => sortInsert p (pySorted rest)

mutual

/-- Model of cli.py `make_hashable(value)` (lines 108-125).  YAML input
never contains Python sets, so the set branch is not modelled. -/
def make_hashable : Value → HValue
  | .null => .null
  | .bool b => .bool b
  | .int n => .int n
  | .str s => .str s
  | .list xs => .tup (mhList xs)
  | .dict d => .pairs (pySorted (mhEntries d))

def mhList : List Value → List HValue
  | [] => []
  | v :: vs => make_hashable v :: mhList vs

def mhEntries : List (Str × Value) → List (Str × HValue)
  | [] => []
  | (k, v) :: r => (k, make_hashable v) :: mhEntries r

end

/-- Python truthiness of a parsed YAML value (for `yaml.safe_load(f) or {}`). -/
def pyTruthy : Value → Bool
  | .null => false
  | .bool b => b
  | .int n => decide (n ≠ 0)
  | .str s => decide (s ≠ [])
  | .list xs => decide (xs ≠ [])
  | .dict d => decide (d ≠ [])

/-- Model of cli.py `load_yaml_file` (lines 78-105) after the file has been
read and parsed: `parsed` is the YAML root (`none` when the document is
empty).  `yaml.safe_load(f) or {}` replaces any falsy root by `{}`; a root
that is then not a dict is the fatal `sys.exit(1)`, modelled as an error.
The file-not-found and parse-error exits are I/O and are not modelled. -/
def load_yaml_file (parsed : Option Value) : Except Unit Dict :=
  let data := match parsed with
    | none => Value.dict []
    | some v => if pyTruthy v then v else Value.dict []
  match data with
  | Value.dict d => Except.ok d
  | _ => Except.error ()

/-- Worker for `setList`: keep the first occurrence of each element not
already seen. -/
def setListAux [DecidableEq α] (seen : List α) : List α → List α
  | [] => []
  | x :: xs => if x ∈ seen then setListAux seen xs else x :: setListAux (x :: seen) xs

/-- Model of Python `set(xs)` as a first-occurrence-ordered duplicate-free
list.  Python's set iteration order is unspecified; this model fixes one
deterministic order. -/
def setList [DecidableEq α] (l : List α) : List α := setListAux [] l

/-- Model of Python set union `s | t` (order: left operand first). -/
def pyUnion [DecidableEq α] (s t : List α) : List α :=
  s ++ t.filter (fun y => decide (y ∉ s))

/-- Model of Python set intersection `s & t`. -/
def pyInter [DecidableEq α] (s t : List α) : List α :=
  s.filter (fun y => decide (y ∈ t))

/-- Model of Python set difference `s - t`. -/
def pyDiff [DecidableEq α] (s t : List α) : List α :=
  s.filter (fun y => decide (y ∉ t))

/-- Model of Python symmetric difference `s ^ t`. -/
def pySymdiff [DecidableEq α] (s t : List α) : List α :=
  pyDiff s t ++ pyDiff t s

/-- `if key in flat1: flat1[key] else: flat2[key]` — the left-precedence
key resolution used by all result-building loops of
`perform_set_operation`.  The fallback default is unreachable whenever the
key comes from one of the two maps. -/
def resolveKey (flat1 flat2 : Dict) (k : Str) : Value :=
  match pyLookup flat1 k with
  | some v => v
  | none => (pyLookup flat2 k).getD Value.null

/-- The keys-mode result-building loop (cli.py lines 171-176). -/
def buildResult (ks : List Str) (flat1 flat2 : Dict) : Dict :=
  ks.foldl (fun acc k => dictInsert acc k (resolveKey flat1 flat2 k)) []

/-- The kv-mode dict comprehension `{k: src[k] for k, _ in result_items}`. -/
def buildFrom (ps : List (Str × HValue)) (src : Dict) : Dict :=
  ps.foldl (fun acc p => dictInsert acc p.1 ((pyLookup src p.1).getD Value.null)) []

/-- The kv-mode union/symdiff result loop with left precedence
(cli.py lines 187-193 and 205-210). -/
def buildResolve (ps : List (Str × HValue)) (flat1 flat2 : Dict) : Dict :=
  ps.foldl (fun acc p => dictInsert acc p.1 (resolveKey flat1 flat2 p.1)) []

/-- `set((k, make_hashable(v)) for k, v in flat.items())` before dedup. -/
def itemsOf (flat : Dict) : List (Str × HValue) :=
  flat.map (fun kv => (kv.1, make_hashable kv.2))

/-- The body of cli.py `perform_set_operation` (lines 148-212) before the
final unflatten step: flatten both inputs, apply the requested set
operation in the requested compare mode, and materialize the result dict.
Unknown operations yield the empty dict; any compare mode other than
`keys` takes the kv branch, exactly as the source's if/else does. -/
def perform_core (file1_data file2_data : Dict) (operation compare_mode : Str)
    (depth : Int) : Dict :=
  let flat1 := flatten_dict file1_data depth []
  let flat2 := flatten_dict file2_data depth []
  if compare_mode = "keys".toList then
    let keys1 := setList (dictKeys flat1)
    let keys2 := setList (dictKeys flat2)
    let result_keys :=
      if operation = "union".toList then pyUnion keys1 keys2
      else if operation = "intersect".toList then pyInter keys1 keys2
      else if operation = "diff".toList then pyDiff keys1 keys2
      else if operation = "rdiff".toList then pyDiff keys2 keys1
      else if operation = "symdiff".toList then pySymdiff keys1 keys2
      else []
    buildResult result_keys flat1 flat2
  else
    let items1 := setList (itemsOf flat1)
    let items2 := setList (itemsOf flat2)
    if operation = "union".toList then buildResolve (pyUnion items1 items2) flat1 flat2
    else if operation = "intersect".toList then buildFrom (pyInter items1 items2) flat1
    else if operation = "diff".toList then buildFrom (pyDiff items1 items2) flat1
    else if operation = "rdiff".toList then buildFrom (pyDiff items2 items1) flat2
    else if operation = "symdiff".toList then buildResolve (pySymdiff items1 items2) flat1 flat2
    else []

/-- Model of cli.py `perform_set_operation` (lines 128-220): the core body
followed by the final `if depth > 1: result = unflatten_dict(result)`
(lines 214-220).  `none` models a TypeError escaping from unflatten. -/
def perform_set_operation (file1_data file2_data : Dict) (operation compare_mode : Str)
    (depth : Int) : Option Dict :=
  let result := perform_core file1_data file2_data operation compare_mode depth
  if depth > 1 then unflatten_dict result else some result

/-! ### Basic lemmas about the dict primitives -/

@[simp] theorem dictKeys_nil : dictKeys [] = [] := rfl

@[simp] theorem pyLookup_nil (q : Str) : pyLookup [] q = none := rfl

@[simp] theorem dictKeys_cons (e : Str × Value) (d : Dict) :
    dictKeys (e :: d) = e.1 :: dictKeys d := rfl

/-- Key membership characterizes a successful lookup. -/
theorem pyLookup_isSome_iff (d : Dict) (q : Str) :
    (pyLookup d q).isSome = true ↔ q ∈ dictKeys d := by
  induction d with
  | nil => simp [pyLookup, dictKeys]
  | cons e rest ih =>
    obtain ⟨k, v⟩ := e
    by_cases h : k = q
    · subst h
      simp [pyLookup, dictKeys]
    · simp only [pyLookup, if_neg h, dictKeys, List.map_cons, List.mem_cons, ih]
      constructor
      · exact Or.inr
      · rintro (hq | hq)
        · exact absurd hq.symm h
        · exact hq

theorem pyLookup_eq_none_iff (d : Dict) (q : Str) :
    pyLookup d q = none ↔ q ∉ dictKeys d := by
  rw [← pyLookup_isSome_iff]
  cases pyLookup d q <;> simp

theorem pyLookup_dictInsert (d : Dict) (k : Str) (v : Value) (q : Str) :
    pyLookup (dictInsert d k v) q = if k = q then some v else pyLookup d q := by
  induction d with
  | nil => simp [dictInsert, pyLookup]
  | cons e rest ih =>
    obtain ⟨k', v'⟩ := e
    by_cases h : k' = k
    · subst h
      by_cases hq : k' = q <;> simp [dictInsert, pyLookup, hq]
    · rw [dictInsert, if_neg h]
      by_cases hq : k' = q
      · subst hq
        have : ¬k = k' := fun hh => h hh.symm
        simp [pyLookup, this]
      · simp [pyLookup, hq, ih]

theorem dictKeys_dictInsert (d : Dict) (k : Str) (v : Value) :
    dictKeys (dictInsert d k v) =
      if k ∈ dictKeys d then dictKeys d else dictKeys d ++ [k] := by
  induction d with
  | nil => simp [dictInsert]
  | cons e rest ih =>
    obtain ⟨k', v'⟩ := e
    by_cases h : k' = k
    · subst h
      simp [dictInsert]
    · have hne : ¬k = k' := fun hh => h hh.symm
      rw [dictInsert, if_neg h, dictKeys_cons, dictKeys_cons, ih]
      by_cases hmem : k ∈ dictKeys rest <;> simp [hmem, hne]

theorem keysNodup_dictInsert {d : Dict} (hd : (dictKeys d).Nodup) (k : Str) (v : Value) :
    (dictKeys (dictInsert d k v)).Nodup := by
  rw [dictKeys_dictInsert]
  by_cases h : k ∈ dictKeys d
  · simpa [h] using hd
  · simp only [h, if_false]
    exact List.Nodup.append hd (List.nodup_singleton k) (by simp [List.disjoint_singleton, h])

/-- Inserting a fresh key appends the new entry. -/
theorem dictInsert_fresh {d : Dict} {k : Str} (h : k ∉ dictKeys d) (v : Value) :
    dictInsert d k v = d ++ [(k, v)] := by
  induction d with
  | nil => simp [dictInsert]
  | cons e rest ih =>
    obtain ⟨k', v'⟩ := e
    rw [dictKeys_cons] at h
    simp only [List.mem_cons, not_or] at h
    rw [dictInsert, if_neg (fun hh => h.1 hh.symm), ih h.2]
    simp

theorem dictInsert_dictInsert (d : Dict) (k : Str) (v w : Value) :
    dictInsert (dictInsert d k w) k v = dictInsert d k v := by
  induction d with
  | nil => simp [dictInsert]
  | cons e rest ih =>
    obtain ⟨k', v'⟩ := e
    by_cases h : k' = k <;> simp [dictInsert, h, ih]

@[simp] theorem dictUpdate_nil_right (d : Dict) : dictUpdate d [] = d := rfl

theorem dictUpdate_cons (d : Dict) (k : Str) (v : Value) (l : List (Str × Value)) :
    dictUpdate d ((k, v) :: l) = dictUpdate (dictInsert d k v) l := rfl

@[simp] theorem dictUpdate_nil_left (l : List (Str × Value)) :
    dictUpdate [] l = l.foldl (fun acc kv => dictInsert acc kv.1 kv.2) [] := rfl

theorem dictUpdate_append (d : Dict) (l1 l2 : List (Str × Value)) :
    dictUpdate d (l1 ++ l2) = dictUpdate (dictUpdate d l1) l2 := by
  simp [dictUpdate, List.foldl_append]

theorem dictUpdate_singleton (d : Dict) (k : Str) (v : Value) :
    dictUpdate d [(k, v)] = dictInsert d k v := rfl

@[simp] theorem dictKeys_append (d1 d2 : Dict) :
    dictKeys (d1 ++ d2) = dictKeys d1 ++ dictKeys d2 := by
  simp [dictKeys]

/-- An update whose keys are all fresh and mutually distinct is an append. -/
theorem dictUpdate_fresh {X : Dict} (hX : (dictKeys X).Nodup) :
    ∀ {A : Dict}, (∀ k ∈ dictKeys X, k ∉ dictKeys A) → dictUpdate A X = A ++ X := by
  induction X with
  | nil => simp
  | cons e rest ih =>
    intro A hfresh
    obtain ⟨k, v⟩ := e
    rw [dictKeys_cons, List.nodup_cons] at hX
    rw [dictUpdate_cons, dictInsert_fresh (hfresh k (by simp)) v, ih hX.2 ?_]
    · simp
    · intro k2 hk2
      rw [dictKeys_append]
      simp only [List.mem_append, not_or]
      refine ⟨hfresh k2 (by simp [hk2]), ?_⟩
      simp only [dictKeys_cons, dictKeys_nil, List.mem_singleton]
      intro hkk
      exact hX.1 (hkk ▸ hk2)

/-- A nodup collapse is the identity. -/
theorem dictUpdate_nil_of_nodup {X : Dict} (hX : (dictKeys X).Nodup) :
    dictUpdate [] X = X := by
  have := dictUpdate_fresh hX (A := []) (by simp)
  simpa using this

theorem pyLookup_append (l1 l2 : Dict) (q : Str) :
    pyLookup (l1 ++ l2) q =
      match pyLookup l1 q with
      | some v => some v
      | none => pyLookup l2 q := by
  induction l1 with
  | nil => simp [pyLookup]
  | cons e rest ih =>
    obtain ⟨k, v⟩ := e
    by_cases h : k = q <;> simp [pyLookup, h, ih]

/-- On nodup-keyed dicts, looking up in the reversed list is the same. -/
theorem pyLookup_reverse_of_nodup {l : Dict} (h : (dictKeys l).Nodup) (q : Str) :
    pyLookup l.reverse q = pyLookup l q := by
  induction l with
  | nil => simp
  | cons e rest ih =>
    obtain ⟨k, v⟩ := e
    rw [dictKeys_cons, List.nodup_cons] at h
    rw [List.reverse_cons, pyLookup_append, ih h.2]
    by_cases hq : k = q
    · subst hq
      have : pyLookup rest k = none := (pyLookup_eq_none_iff rest k).2 h.1
      simp [pyLookup, this]
    · cases hrest : pyLookup rest q <;> simp [pyLookup, hq, hrest]

/-- The value bound for `q` after replaying `X` onto `A`: the last binding
of `q` in `X` if any, else the binding in `A`. -/
theorem pyLookup_dictUpdate (X : Dict) :
    ∀ (A : Dict) (q : Str), pyLookup (dictUpdate A X) q =
      match pyLookup X.reverse q with
      | some v => some v
      | none => pyLookup A q := by
  induction X with
  | nil => intro A q; simp
  | cons e rest ih =>
    intro A q
    obtain ⟨k, v⟩ := e
    rw [dictUpdate_cons, ih, List.reverse_cons, pyLookup_append]
    cases hr : pyLookup rest.reverse q
    · rw [pyLookup_dictInsert]
      by_cases hq : k = q <;> simp [pyLookup, hq]
    · simp

/-! ### setListAux / setList lemmas -/

theorem setListAux_congr {seen1 seen2 : List α} [DecidableEq α]
    (h : ∀ x, x ∈ seen1 ↔ x ∈ seen2) : ∀ l, setListAux seen1 l = setListAux seen2 l := by
  intro l
  induction l generalizing seen1 seen2 with
  | nil => simp [setListAux]
  | cons x xs ih =>
    by_cases hx : x ∈ seen1
    · rw [setListAux, if_pos hx, setListAux, if_pos ((h x).1 hx), ih h]
    · rw [setListAux, if_neg hx, setListAux, if_neg (fun hh => hx ((h x).2 hh))]
      exact congrArg (x :: ·) (ih (fun y => by simp [List.mem_cons, h y]))

theorem mem_setListAux {seen : List α} [DecidableEq α] {l : List α} {x : α} :
    x ∈ setListAux seen l ↔ x ∈ l ∧ x ∉ seen := by
  induction l generalizing seen with
  | nil => simp [setListAux]
  | cons y ys ih =>
    by_cases hy : y ∈ seen
    · rw [setListAux, if_pos hy, ih]
      constructor
      · exact fun ⟨h1, h2⟩ => ⟨List.mem_cons_of_mem _ h1, h2⟩
      · rintro ⟨h1, h2⟩
        rcases List.mem_cons.1 h1 with h1 | h1
        · exact absurd (h1 ▸ hy) h2
        · exact ⟨h1, h2⟩
    · rw [setListAux, if_neg hy]
      rw [List.mem_cons, List.mem_cons, ih]
      constructor
      · rintro (h | ⟨h1, h2⟩)
        · exact ⟨Or.inl h, h ▸ hy⟩
        · exact ⟨Or.inr h1, fun hh => h2 (List.mem_cons_of_mem _ hh)⟩
      · rintro ⟨h1 | h1, h2⟩
        · exact Or.inl h1
        · by_cases hxy : x = y
          · exact Or.inl hxy
          · exact Or.inr ⟨h1, fun hh => (List.mem_cons.1 hh).elim hxy h2⟩

theorem setListAux_nodup [DecidableEq α] (seen l : List α) :
    (setListAux seen l).Nodup := by
  induction l generalizing seen with
  | nil => simp [setListAux]
  | cons x xs ih =>
    by_cases hx : x ∈ seen
    · rw [setListAux, if_pos hx]
      exact ih seen
    · rw [setListAux, if_neg hx, List.nodup_cons]
      refine ⟨fun hmem => ?_, ih _⟩
      exact (mem_setListAux.1 hmem).2 (by simp)

theorem setListAux_sub_seen [DecidableEq α] {seen l : List α} {x : α}
    (h : x ∈ setListAux seen l) : x ∉ seen := (mem_setListAux.1 h).2

theorem setList_nodup [DecidableEq α] (l : List α) : (setList l).Nodup :=
  setListAux_nodup [] l

theorem mem_setList [DecidableEq α] {l : List α} {x : α} : x ∈ setList l ↔ x ∈ l := by
  rw [setList, mem_setListAux]
  simp

/-- On a nodup list, dedup against a seen set is a plain filter. -/
theorem setListAux_of_nodup [DecidableEq α] {l : List α} (h : l.Nodup) :
    ∀ seen, setListAux seen l = l.filter (fun x => decide (x ∉ seen)) := by
  induction l with
  | nil => intro seen; simp [setListAux]
  | cons x xs ih =>
    intro seen
    rw [List.nodup_cons] at h
    rw [List.filter_cons]
    by_cases hx : x ∈ seen
    · rw [setListAux, if_pos hx]
      have hd : decide (x ∉ seen) = false := by simp [hx]
      rw [hd]
      simp only [Bool.false_eq_true, if_false]
      exact ih h.2 seen
    · rw [setListAux, if_neg hx]
      have hd : decide (x ∉ seen) = true := by simp [hx]
      rw [hd, if_pos rfl, ih h.2 (x :: seen), List.filter_congr ?_]
      intro y hy
      simp only [decide_eq_decide, List.mem_cons, not_or]
      constructor
      · exact fun hp => hp.2
      · exact fun hys => ⟨fun hyx => h.1 (hyx ▸ hy), hys⟩

/-- Deduplicating a list that is already nodup is the identity. -/
theorem setList_of_nodup [DecidableEq α] {l : List α} (h : l.Nodup) : setList l = l := by
  rw [setList, setListAux_of_nodup h]
  simp

/-- Nested dedup collapses: deduplicating an already-deduplicated list
against a larger seen set is deduplicating the original. -/
theorem setListAux_setListAux [DecidableEq α] :
    ∀ (seen s l : List α), (∀ x ∈ s, x ∈ seen) →
      setListAux seen (setListAux s l) = setListAux seen l := by
  intro seen s l
  induction l generalizing seen s with
  | nil => simp [setListAux]
  | cons x xs ih =>
    intro hsub
    by_cases hx : x ∈ s
    · rw [setListAux, if_pos hx, ih _ _ hsub, setListAux, if_pos (hsub x hx)]
    · rw [setListAux, if_neg hx]
      by_cases hseen : x ∈ seen
      · rw [setListAux, if_pos hseen, setListAux, if_pos hseen]
        refine ih _ _ ?_
        intro y hy
        rcases List.mem_cons.1 hy with hy | hy
        · exact hy ▸ hseen
        · exact hsub y hy
      · rw [setListAux, if_neg hseen, setListAux, if_neg hseen]
        refine congrArg (x :: ·) (ih _ _ ?_)
        intro y hy
        rcases List.mem_cons.1 hy with hy | hy
        · exact hy ▸ List.mem_cons_self x seen
        · exact List.mem_cons_of_mem _ (hsub y hy)

/-- Keys after an update: old keys, then the first occurrences of genuinely
new keys. -/
theorem dictKeys_dictUpdate (X : Dict) :
    ∀ A : Dict, dictKeys (dictUpdate A X) =
      dictKeys A ++ setListAux (dictKeys A) (dictKeys X) := by
  induction X with
  | nil => simp [setListAux]
  | cons e rest ih =>
    intro A
    obtain ⟨k, v⟩ := e
    rw [dictUpdate_cons, ih, dictKeys_dictInsert, dictKeys_cons]
    by_cases hk : k ∈ dictKeys A
    · rw [if_pos hk, setListAux, if_pos hk]
    · rw [if_neg hk, setListAux, if_neg hk, List.append_assoc, List.singleton_append]
      refine congrArg (dictKeys A ++ ·) (congrArg (k :: ·) ?_)
      exact setListAux_congr (fun x => by simp [List.mem_append, List.mem_cons, or_comm]) _

theorem keysNodup_dictUpdate {A : Dict} (hA : (dictKeys A).Nodup) (X : Dict) :
    (dictKeys (dictUpdate A X)).Nodup := by
  rw [dictKeys_dictUpdate]
  refine List.Nodup.append hA (setListAux_nodup _ _) ?_
  intro a ha hb
  exact setListAux_sub_seen hb ha

/-- Extensionality for nodup-keyed dicts: equal key lists and equal lookups
give equal dicts. -/
theorem dictExt : ∀ {A B : Dict}, (dictKeys A).Nodup → dictKeys A = dictKeys B →
    (∀ q, pyLookup A q = pyLookup B q) → A = B := by
  intro A
  induction A with
  | nil =>
    intro B _ hkeys _
    cases B with
    | nil => rfl
    | cons e rest => simp at hkeys
  | cons e rest ih =>
    intro B hnd hkeys hlook
    obtain ⟨k, v⟩ := e
    cases B with
    | nil => simp at hkeys
    | cons e2 rest2 =>
      obtain ⟨k2, v2⟩ := e2
      rw [dictKeys_cons, dictKeys_cons] at hkeys
      injection hkeys with hk hrest
      subst hk
      rw [dictKeys_cons, List.nodup_cons] at hnd
      have hv : v = v2 := by
        have := hlook k
        simpa [pyLookup] using this
      subst hv
      have htail : ∀ q, pyLookup rest q = pyLookup rest2 q := by
        intro q
        by_cases hq : k = q
        · subst hq
          rw [(pyLookup_eq_none_iff rest k).2 hnd.1,
            (pyLookup_eq_none_iff rest2 k).2 (hrest ▸ hnd.1)]
        · have := hlook q
          simpa [pyLookup, hq] using this
      rw [ih hnd.2 hrest htail]

/-- Collapsing an update list through the empty dict first does not change
the result of replaying it onto a nodup-keyed dict. -/
theorem dictUpdate_collapse {A : Dict} (hA : (dictKeys A).Nodup) (X : Dict) :
    dictUpdate A (dictUpdate [] X) = dictUpdate A X := by
  refine dictExt (keysNodup_dictUpdate hA _) ?_ ?_
  · rw [dictKeys_dictUpdate, dictKeys_dictUpdate, dictKeys_dictUpdate]
    simp only [dictKeys_nil, List.nil_append]
    rw [setListAux_setListAux _ [] _ (by simp)]
  · intro q
    rw [pyLookup_dictUpdate, pyLookup_dictUpdate]
    have hcoll : pyLookup (dictUpdate [] X).reverse q = pyLookup X.reverse q := by
      have hnodup : (dictKeys (dictUpdate [] X)).Nodup :=
        keysNodup_dictUpdate (by simp) X
      rw [pyLookup_reverse_of_nodup hnodup, pyLookup_dictUpdate]
      cases pyLookup X.reverse q <;> simp [pyLookup]
    rw [hcoll]

/-! ### splitSep lemmas -/

theorem splitSep_ne_nil (s : Str) : splitSep s ≠ [] := by
  cases s with
  | nil => simp [splitSep]
  | cons c rest =>
    rw [splitSep]
    by_cases hc : c = '.' <;> simp [hc]

theorem splitSep_length_pos (s : Str) : 0 < (splitSep s).length :=
  List.length_pos.2 (splitSep_ne_nil s)

/-- A separator-free string splits into itself. -/
theorem splitSep_eq_single {s : Str} (h : '.' ∉ s) : splitSep s = [s] := by
  induction s with
  | nil => rfl
  | cons c rest ih =>
    simp only [List.mem_cons, not_or] at h
    rw [splitSep, if_neg (fun hc => h.1 hc.symm), ih h.2]
    simp

theorem splitSep_append_sep (a b : Str) :
    splitSep (a ++ '.' :: b) = splitSep a ++ splitSep b := by
  induction a with
  | nil =>
    rw [List.nil_append]
    simp [splitSep]
  | cons c a2 ih =>
    rw [List.cons_append, splitSep, ih]
    cases h : splitSep a2 with
    | nil => exact absurd h (splitSep_ne_nil a2)
    | cons g gs =>
      by_cases hc : c = '.'
      · subst hc
        rw [if_pos rfl]
        show ([] : Str) :: (g :: gs ++ splitSep b) = splitSep ('.' :: a2) ++ splitSep b
        rw [splitSep, if_pos rfl, h]
        simp
      · rw [if_neg hc]
        show (c :: (g :: (gs ++ splitSep b)).headI) :: (g :: (gs ++ splitSep b)).tail =
          splitSep (c :: a2) ++ splitSep b
        rw [splitSep, if_neg hc, h]
        simp

/-- The segment path of the accumulated parent key: empty for the empty
parent (top level), its split otherwise. -/
def segs0 (p : Str) : List Str := if p = [] then [] else splitSep p

@[simp] theorem segs0_nil : segs0 [] = [] := rfl

theorem splitSep_newKeyOf {k : Str} (hk : '.' ∉ k) (p : Str) :
    splitSep (newKeyOf p k) = segs0 p ++ [k] := by
  by_cases hp : p = []
  · subst hp
    rw [newKeyOf, if_pos rfl, segs0, if_pos rfl, List.nil_append, splitSep_eq_single hk]
  · rw [newKeyOf, if_neg hp, segs0, if_neg hp, splitSep_append_sep, splitSep_eq_single hk]

theorem newKeyOf_ne_nil {k : Str} (hk : k ≠ []) (p : Str) : newKeyOf p k ≠ [] := by
  by_cases hp : p = []
  · simpa [newKeyOf, hp] using hk
  · simp [newKeyOf, hp]

theorem segs0_newKeyOf {k : Str} (hk0 : k ≠ []) (hk : '.' ∉ k) (p : Str) :
    segs0 (newKeyOf p k) = segs0 p ++ [k] := by
  rw [segs0, if_neg (newKeyOf_ne_nil hk0 p), splitSep_newKeyOf hk]

/-- Joining the pieces of a split with the separator restores the string. -/
def joinTail : List Str → Str
  | [] => []
  | s :: rest => '.' :: (s ++ joinTail rest)

def joinSegs : List Str → Str
  | [] => []
  | s :: rest => s ++ joinTail rest

theorem joinSegs_splitSep (s : Str) : joinSegs (splitSep s) = s := by
  induction s with
  | nil => rfl
  | cons c rest ih =>
    rw [splitSep]
    cases h : splitSep rest with
    | nil => exact absurd h (splitSep_ne_nil rest)
    | cons g gs =>
      rw [h] at ih
      rw [joinSegs] at ih
      by_cases hc : c = '.'
      · subst hc
        rw [if_pos rfl, joinSegs, List.nil_append, joinTail, ih]
      · rw [if_neg hc]
        simp only [List.headI_cons, List.tail_cons]
        rw [joinSegs, List.cons_append, ih]

theorem splitSep_inj {a b : Str} (h : splitSep a = splitSep b) : a = b := by
  have := joinSegs_splitSep a
  rw [h, joinSegs_splitSep b] at this
  exact this.symm

/-! ### Document well-formedness predicates -/

mutual

/-- Every mapping inside the value has duplicate-free keys (true of every
value parsed from a Python dict). -/
def Value.nodupKeys : Value → Bool
  | .dict d => decide ((dictKeys d).Nodup) && nodupKeysE d
  | .list xs => nodupKeysL xs
  | _ => true

def nodupKeysL : List Value → Bool
  | [] => true
  | v :: vs => Value.nodupKeys v && nodupKeysL vs

def nodupKeysE : List (Str × Value) → Bool
  | [] => true
  | (_, v) :: r => Value.nodupKeys v && nodupKeysE r

end

mutual

/-- Every mapping key inside the value is non-empty and free of the
separator character (lists are opaque to flatten, so their contents are
unconstrained). -/
def Value.sepFree : Value → Bool
  | .dict d => sepFreeE d
  | _ => true

def sepFreeE : List (Str × Value) → Bool
  | [] => true
  | (k, v) :: r => decide (k ≠ []) && decide ('.' ∉ k) && Value.sepFree v && sepFreeE r

end

/-! ### The flat entry list computed by flatten (specification form) -/

mutual

/-- The list of flat entries emitted by the `flatten_dict` walk, in
traversal order: the concatenation of the entries each key contributes. -/
def flatListD : Dict → Int → Str → List (Str × Value)
  | [], _, _ => []
  | (key, value) :: rest, depth, p =>
    flatEntryD key value depth p ++ flatListD rest depth p

/-- The flat entries one key contributes: its own binding when truncated
at the depth limit or when its value is a scalar, a list, or an empty
mapping; the recursive flattening of its value otherwise. -/
def flatEntryD (key : Str) (value : Value) (depth : Int) (p : Str) :
    List (Str × Value) :=
  if depth > 0 ∧ ((splitSep (newKeyOf p key)).length : Int) ≥ depth then
    [(newKeyOf p key, value)]
  else
    match value with
    | Value.dict [] => [(newKeyOf p key, value)]
    | Value.dict (e :: d) => flatListD (e :: d) depth (newKeyOf p key)
    | _ => [(newKeyOf p key, value)]

end

theorem flatten_entry_keysNodup {items : Dict} (h : (dictKeys items).Nodup)
    (key : Str) (value : Value) (depth : Int) (p : Str) :
    (dictKeys (flatten_entry key value depth p items)).Nodup := by
  cases value with
  | dict d =>
    cases d with
    | nil =>
      simp only [flatten_entry]
      split
      · exact keysNodup_dictInsert h _ _
      · exact keysNodup_dictInsert h _ _
    | cons e d2 =>
      simp only [flatten_entry]
      split
      · exact keysNodup_dictInsert h _ _
      · exact keysNodup_dictUpdate h _
  | null =>
    simp only [flatten_entry]
    split <;> exact keysNodup_dictInsert h _ _
  | bool b =>
    simp only [flatten_entry]
    split <;> exact keysNodup_dictInsert h _ _
  | int n =>
    simp only [flatten_entry]
    split <;> exact keysNodup_dictInsert h _ _
  | str s =>
    simp only [flatten_entry]
    split <;> exact keysNodup_dictInsert h _ _
  | list xs =>
    simp only [flatten_entry]
    split <;> exact keysNodup_dictInsert h _ _

/-- The flatten loop is the replay of its emitted entry list onto the
accumulator: this is the per-entry contract of C2 in compositional form
(truncated and scalar/list/empty entries are bound directly; non-empty
mappings contribute their recursive flattening, merged by dict update). -/
theorem flatten_items_eq : ∀ (data : Dict) (depth : Int) (p : Str) (items : Dict),
    (dictKeys items).Nodup →
    flatten_items data depth p items = dictUpdate items (flatListD data depth p)
  | [], depth, p, items, h => by
    rw [flatten_items, flatListD, dictUpdate_nil_right]
  | (key, value) :: rest, depth, p, items, h => by
    rw [flatten_items,
      flatten_items_eq rest depth p _ (flatten_entry_keysNodup h key value depth p),
      flatListD, dictUpdate_append]
    congr 1
    cases value with
    | dict d =>
      cases d with
      | nil =>
        simp only [flatten_entry, flatEntryD]
        split
        · rw [dictUpdate_singleton]
        · rw [dictUpdate_singleton]
      | cons e d2 =>
        simp only [flatten_entry, flatEntryD]
        by_cases hc : depth > 0 ∧ ((splitSep (newKeyOf p key)).length : Int) ≥ depth
        · rw [if_pos hc, if_pos hc, dictUpdate_singleton]
        · have hd1 : ¬(depth = 1 ∧ newKeyOf p key = []) := by
            rintro ⟨h1, h2⟩
            apply hc
            refine ⟨by omega, ?_⟩
            have := splitSep_length_pos (newKeyOf p key)
            omega
          rw [if_neg hc, if_neg hc, if_neg hd1,
            flatten_items_eq (e :: d2) depth (newKeyOf p key) [] (by simp)]
          exact dictUpdate_collapse h _
    | null =>
      simp only [flatten_entry, flatEntryD]
      split
      · rw [dictUpdate_singleton]
      · rw [dictUpdate_singleton]
    | bool b =>
      simp only [flatten_entry, flatEntryD]
      split
      · rw [dictUpdate_singleton]
      · rw [dictUpdate_singleton]
    | int n =>
      simp only [flatten_entry, flatEntryD]
      split
      · rw [dictUpdate_singleton]
      · rw [dictUpdate_singleton]
    | str s =>
      simp only [flatten_entry, flatEntryD]
      split
      · rw [dictUpdate_singleton]
      · rw [dictUpdate_singleton]
    | list xs =>
      simp only [flatten_entry, flatEntryD]
      split
      · rw [dictUpdate_singleton]
      · rw [dictUpdate_singleton]
termination_by data depth p items h => sizeOf data
decreasing_by all_goals (simp_wf <;> omega)

/-! ### Segment-level view of unflatten -/

/-- A flat map whose keys have already been split into segment paths. -/
abbrev SegMap := List (List Str × Value)

/-- unflatten as a fold over pre-split entries. -/
def unflattenSegs (L : SegMap) : Option Dict :=
  L.foldlM (fun R e => insertSegs e.1 e.2 R) []

theorem unflatten_dict_eq_unflattenSegs (data : Dict) :
    unflatten_dict data = unflattenSegs (data.map (fun e => (splitSep e.1, e.2))) := by
  rw [unflatten_dict, unflattenSegs]
  generalize ([] : Dict) = init
  induction data generalizing init with
  | nil => rfl
  | cons e rest ih =>
    rw [List.map_cons, List.foldlM_cons, List.foldlM_cons]
    cases insertSegs (splitSep e.1) e.2 init with
    | none => rfl
    | some R => exact ih R

/-- `segPre p q`: `p` is an initial segment of `q`. -/
def segPre : List Str → List Str → Bool
  | [], _ => true
  | _ :: _, [] => false
  | a :: as, b :: bs => decide (a = b) && segPre as bs

@[simp] theorem segPre_nil_left (q : List Str) : segPre [] q = true := by
  cases q <;> rfl

@[simp] theorem segPre_refl : ∀ p : List Str, segPre p p = true
  | [] => rfl
  | a :: as => by simp [segPre, segPre_refl as]

theorem segPre_cons_cons (a b : Str) (as bs : List Str) :
    segPre (a :: as) (b :: bs) = (decide (a = b) && segPre as bs) := rfl

/-- No path in the map is an initial segment (proper or equal) of another
path occurring at a different position. -/
def IndepPaths (L : SegMap) : Prop :=
  L.Pairwise (fun e1 e2 => segPre e1.1 e2.1 = false ∧ segPre e2.1 e1.1 = false)

/-- All paths are non-empty (true of every split key). -/
def NonNilPaths (L : SegMap) : Prop := ∀ e ∈ L, e.1 ≠ []

theorem indepPaths_sublist {L1 L2 : SegMap} (hs : L1.Sublist L2) (h : IndepPaths L2) :
    IndepPaths L1 := List.Pairwise.sublist hs h

theorem nonNilPaths_sublist {L1 L2 : SegMap} (hs : L1.Sublist L2) (h : NonNilPaths L2) :
    NonNilPaths L1 := fun e he => h e (hs.mem he)

/-- Total number of path segments, the termination measure of the
canonical tree builder. -/
def sumLen (L : SegMap) : Nat := (L.map (fun e => e.1.length)).sum

@[simp] theorem sumLen_nil : sumLen [] = 0 := rfl

@[simp] theorem sumLen_cons (e : List Str × Value) (L : SegMap) :
    sumLen (e :: L) = e.1.length + sumLen L := rfl

/-- The first segments of all paths, with multiplicity. -/
def headsOf (L : SegMap) : List Str := L.filterMap (fun e => e.1.head?)

@[simp] theorem headsOf_nil : headsOf [] = [] := rfl

theorem headsOf_cons (e : List Str × Value) (L : SegMap) :
    headsOf (e :: L) =
      match e.1.head? with
      | some s => s :: headsOf L
      | none => headsOf L := by
  cases h : e.1.head? <;> simp [headsOf, List.filterMap_cons, h]

theorem mem_headsOf {L : SegMap} {s : Str} :
    s ∈ headsOf L ↔ ∃ e ∈ L, ∃ q, e.1 = s :: q := by
  rw [headsOf]
  simp only [List.mem_filterMap, List.head?_eq_some_iff]

/-- One entry's contribution to `stripHead`: kept (with its first segment
stripped) exactly when its path starts with `s` and goes deeper. -/
def stripEntry (s : Str) : List Str × Value → Option (List Str × Value)
  | ([], _) => none
  | ([_], _) => none
  | (x :: y :: q, v) => if x = s then some (y :: q, v) else none

/-- Entries whose path starts with `s` and goes deeper, with that first
segment stripped. -/
def stripHead (s : Str) (L : SegMap) : SegMap := L.filterMap (stripEntry s)

@[simp] theorem stripHead_nil (s : Str) : stripHead s [] = [] := rfl

theorem stripHead_cons (s : Str) (e : List Str × Value) (L : SegMap) :
    stripHead s (e :: L) =
      match stripEntry s e with
      | some e2 => e2 :: stripHead s L
      | none => stripHead s L := by
  rw [stripHead, List.filterMap_cons]
  cases stripEntry s e <;> rfl

theorem stripHead_append (s : Str) (L1 L2 : SegMap) :
    stripHead s (L1 ++ L2) = stripHead s L1 ++ stripHead s L2 :=
  List.filterMap_append _ _ _

theorem sumLen_stripHead_le (s : Str) : ∀ L : SegMap, sumLen (stripHead s L) ≤ sumLen L
  | [] => by simp
  | ([], v) :: rest => by
    rw [stripHead_cons]
    simp only [stripEntry]
    exact le_trans (sumLen_stripHead_le s rest) (by simp)
  | ([x], v) :: rest => by
    rw [stripHead_cons]
    simp only [stripEntry]
    exact le_trans (sumLen_stripHead_le s rest) (by simp)
  | (x :: y :: q, v) :: rest => by
    rw [stripHead_cons]
    simp only [stripEntry]
    by_cases hx : x = s
    · rw [if_pos hx]
      show sumLen ((y :: q, v) :: stripHead s rest) ≤ sumLen ((x :: y :: q, v) :: rest)
      rw [sumLen_cons, sumLen_cons]
      have := sumLen_stripHead_le s rest
      simp only [List.length_cons]
      omega
    · rw [if_neg hx]
      show sumLen (stripHead s rest) ≤ sumLen ((x :: y :: q, v) :: rest)
      exact le_trans (sumLen_stripHead_le s rest) (by simp)

/-- If `s` heads some path but no path is exactly `[s]`, stripping `s`
strictly shrinks the measure. -/
theorem sumLen_stripHead_lt {s : Str} : ∀ {L : SegMap}, s ∈ headsOf L →
    L.find? (fun e => decide (e.1 = [s])) = none → sumLen (stripHead s L) < sumLen L
  | [], hs, _ => by simp [headsOf] at hs
  | (p, v) :: rest, hs, hnone => by
    have hne : ¬(p = [s]) := by
      intro hp
      rw [List.find?_cons_of_pos _ (by simp [hp])] at hnone
      exact Option.noConfusion hnone
    have hnrest : rest.find? (fun e => decide (e.1 = [s])) = none := by
      rwa [List.find?_cons_of_neg _ (by simp [hne])] at hnone
    rw [stripHead_cons]
    match p, hne with
    | [], hne =>
      simp only [stripEntry]
      have hs2 : s ∈ headsOf rest := by
        rw [headsOf_cons] at hs
        simpa using hs
      exact lt_of_lt_of_le (sumLen_stripHead_lt hs2 hnrest) (by simp)
    | [x], hne =>
      simp only [stripEntry]
      have hs2 : s ∈ headsOf rest := by
        rw [headsOf_cons] at hs
        simp only [List.head?] at hs
        rcases List.mem_cons.1 hs with h | h
        · exact absurd (by rw [h]) hne
        · exact h
      exact lt_of_lt_of_le (sumLen_stripHead_lt hs2 hnrest) (by
        rw [sumLen_cons]
        omega)
    | x :: y :: q, hne =>
      simp only [stripEntry]
      by_cases hx : x = s
      · rw [if_pos hx]
        show sumLen ((y :: q, v) :: stripHead s rest) < sumLen ((x :: y :: q, v) :: rest)
        rw [sumLen_cons, sumLen_cons]
        have := sumLen_stripHead_le s rest
        simp only [List.length_cons]
        omega
      · rw [if_neg hx]
        show sumLen (stripHead s rest) < sumLen ((x :: y :: q, v) :: rest)
        have hs2 : s ∈ headsOf rest := by
          rw [headsOf_cons] at hs
          simp only [List.head?] at hs
          rcases List.mem_cons.1 hs with h | h
          · exact absurd h.symm hx
          · exact h
        exact lt_of_lt_of_le (sumLen_stripHead_lt hs2 hnrest) (by
          rw [sumLen_cons]
          omega)

/-! ### The canonical tree built by unflatten on independent paths -/

/-- The nested dict determined by an independent-path seg map: one entry
per distinct head segment, holding the single-segment value when one
exists and the recursively built subtree of the stripped tails otherwise. -/
def buildCanon (L : SegMap) : Dict :=
  (setList (headsOf L)).attach.map (fun st =>
    (st.1,
      match h : L.find? (fun e => decide (e.1 = [st.1])) with
      | some e => e.2
      | none => Value.dict (buildCanon (stripHead st.1 L))))
termination_by sumLen L
decreasing_by
  simp_wf
  exact sumLen_stripHead_lt (mem_setList.1 st.2) h

/-- The node `buildCanon` assigns to a head segment: the value of the
single-segment entry for `s` when there is one, the subtree of the
stripped tails otherwise. -/
def canonNode (L : SegMap) (s : Str) : Value :=
  ((L.find? (fun e => decide (e.1 = [s]))).map (fun e => e.2)).getD
    (Value.dict (buildCanon (stripHead s L)))

theorem buildCanon_eq (L : SegMap) :
    buildCanon L = (setList (headsOf L)).map (fun s => (s, canonNode L s)) := by
  rw [buildCanon]
  refine Eq.trans (List.map_congr_left ?_) (List.attach_map_coe _ _)
  intro st hst
  show _ = (fun s => (s, canonNode L s)) st.1
  dsimp only
  cases hf : L.find? (fun e => decide (e.1 = [st.1])) with
  | none => simp [canonNode, hf]
  | some e => simp [canonNode, hf]

theorem buildCanon_nil : buildCanon [] = [] := by
  rw [buildCanon_eq]
  rfl

theorem pyLookup_map_keys (ks : List Str) (g : Str → Value) (q : Str) :
    pyLookup (ks.map (fun s => (s, g s))) q = if q ∈ ks then some (g q) else none := by
  induction ks with
  | nil => simp
  | cons k ks ih =>
    rw [List.map_cons, pyLookup]
    by_cases hk : k = q
    · subst hk
      simp
    · rw [if_neg hk, ih]
      have : ¬q = k := fun h => hk h.symm
      by_cases hq : q ∈ ks <;> simp [hq, this]

theorem dictKeys_map_keys (ks : List Str) (g : Str → Value) :
    dictKeys (ks.map (fun s => (s, g s))) = ks := by
  rw [dictKeys, List.map_map]
  show List.map (fun s => s) ks = ks
  simpa using List.map_id ks

theorem dictKeys_buildCanon (L : SegMap) :
    dictKeys (buildCanon L) = setList (headsOf L) := by
  rw [buildCanon_eq, dictKeys_map_keys]

theorem pyLookup_buildCanon (L : SegMap) (s : Str) :
    pyLookup (buildCanon L) s =
      if s ∈ headsOf L then some (canonNode L s) else none := by
  rw [buildCanon_eq, pyLookup_map_keys]
  by_cases hs : s ∈ headsOf L <;> simp [hs, mem_setList]

/-- Replacing the value at a present key of a key-indexed map. -/
theorem dictInsert_map_mem {ks : List Str} (hnd : ks.Nodup) {s : Str} (hs : s ∈ ks)
    (g : Str → Value) (x : Value) :
    dictInsert (ks.map (fun t => (t, g t))) s x =
      ks.map (fun t => (t, if t = s then x else g t)) := by
  induction ks with
  | nil => simp at hs
  | cons k ks ih =>
    rw [List.nodup_cons] at hnd
    rw [List.map_cons, List.map_cons, dictInsert]
    by_cases hk : k = s
    · subst hk
      rw [if_pos rfl, if_pos rfl]
      congr 1
      refine List.map_congr_left ?_
      intro t ht
      rw [if_neg (fun h : t = k => hnd.1 (h ▸ ht))]
    · have hs2 : s ∈ ks := by
        rcases List.mem_cons.1 hs with h | h
        · exact absurd h.symm hk
        · exact h
      rw [if_neg hk, if_neg hk, ih hnd.2 hs2]

theorem headsOf_append (L1 L2 : SegMap) :
    headsOf (L1 ++ L2) = headsOf L1 ++ headsOf L2 :=
  List.filterMap_append _ _ _

theorem setListAux_append_singleton [DecidableEq α] (b : α) :
    ∀ (xs seen : List α), setListAux seen (xs ++ [b]) =
      if b ∈ seen ∨ b ∈ xs then setListAux seen xs else setListAux seen xs ++ [b]
  | [], seen => by
    by_cases hb : b ∈ seen <;> simp [setListAux, hb]
  | x :: xs, seen => by
    rw [List.cons_append, setListAux, setListAux]
    by_cases hx : x ∈ seen
    · rw [if_pos hx, if_pos hx, setListAux_append_singleton b xs seen]
      by_cases hbs : b ∈ seen
      · simp [hbs]
      · by_cases hbx : b = x
        · exact absurd (hbx ▸ hx) hbs
        · by_cases hbxs : b ∈ xs <;> simp [hbs, hbx, hbxs]
    · rw [if_neg hx, if_neg hx, setListAux_append_singleton b xs (x :: seen)]
      by_cases hbs : b ∈ seen
      · simp [hbs, List.mem_cons]
      · by_cases hbx : b = x
        · simp [hbx, List.mem_cons]
        · have : (b ∈ x :: seen) = (b ∈ seen) := by
            simp [List.mem_cons, hbx, hbs]
          by_cases hbxs : b ∈ xs <;>
            simp [List.mem_cons, hbx, hbs, hbxs]

theorem setList_append_not_mem [DecidableEq α] {xs : List α} {b : α} (hb : b ∉ xs) :
    setList (xs ++ [b]) = setList xs ++ [b] := by
  rw [setList, setList, setListAux_append_singleton]
  simp [hb]

theorem setList_append_mem [DecidableEq α] {xs : List α} {b : α} (hb : b ∈ xs) :
    setList (xs ++ [b]) = setList xs := by
  rw [setList, setList, setListAux_append_singleton]
  simp [hb]

theorem stripHead_eq_nil_of_not_mem {s : Str} : ∀ {M : SegMap}, s ∉ headsOf M →
    stripHead s M = []
  | [], _ => rfl
  | (p, v) :: rest, h => by
    rw [headsOf_cons] at h
    rw [stripHead_cons]
    match p, h with
    | [], h =>
      simp only [stripEntry]
      exact stripHead_eq_nil_of_not_mem (by simpa using h)
    | [x], h =>
      simp only [stripEntry]
      refine stripHead_eq_nil_of_not_mem ?_
      simp only [List.head?] at h
      intro hmem
      exact h (List.mem_cons_of_mem _ hmem)
    | x :: y :: q, h =>
      simp only [stripEntry, List.head?] at h ⊢
      rw [if_neg (fun hh : x = s => h (hh ▸ List.mem_cons_self x _))]
      refine stripHead_eq_nil_of_not_mem ?_
      intro hmem
      exact h (List.mem_cons_of_mem _ hmem)

theorem nonNil_stripHead (s : Str) (M : SegMap) : NonNilPaths (stripHead s M) := by
  intro e he
  rw [stripHead, List.mem_filterMap] at he
  obtain ⟨e0, he0, hmap⟩ := he
  match e0, hmap with
  | (x :: y :: q, v), hmap =>
    rw [stripEntry] at hmap
    by_cases hx : x = s
    · rw [if_pos hx] at hmap
      cases hmap
      simp
    · rw [if_neg hx] at hmap
      exact Option.noConfusion hmap

/-- Appending an entry that neither is the single-segment path `[t]` nor
contributes to the `t`-subtree leaves the node at `t` unchanged. -/
theorem canonNode_append_irrelevant {M : SegMap} {e2 : List Str × Value} {t : Str}
    (h1 : ¬(e2.1 = [t])) (h2 : stripEntry t e2 = none) :
    canonNode (M ++ [e2]) t = canonNode M t := by
  rw [canonNode, canonNode, List.find?_append]
  have hfe : List.find? (fun e => decide (e.1 = [t])) [e2] = none := by
    simp [h1]
  rw [hfe, Option.or_none, stripHead_append]
  have hse : stripHead t [e2] = [] := by
    rw [stripHead, List.filterMap_cons, h2]
    rfl
  rw [hse, List.append_nil]

theorem canonNode_of_find_none {L : SegMap} {s : Str}
    (h : L.find? (fun e => decide (e.1 = [s])) = none) :
    canonNode L s = Value.dict (buildCanon (stripHead s L)) := by
  rw [canonNode, h]
  rfl

theorem segPre_cons_same (s : Str) (a b : List Str) :
    segPre (s :: a) (s :: b) = segPre a b := by
  simp [segPre]

theorem segPre_single_cons (s : Str) (q : List Str) :
    segPre [s] (s :: q) = true := by
  simp [segPre]

/-- The cross condition of an independent append: every old entry is
segment-incomparable with the appended one. -/
theorem indep_append_cross {M : SegMap} {e2 : List Str × Value}
    (h : IndepPaths (M ++ [e2])) :
    ∀ e ∈ M, segPre e.1 e2.1 = false ∧ segPre e2.1 e.1 = false := by
  intro e he
  exact (List.pairwise_append.1 h).2.2 e he e2 (by simp)

theorem indep_append_left {M : SegMap} {N : SegMap} (h : IndepPaths (M ++ N)) :
    IndepPaths M := (List.pairwise_append.1 h).1

/-- Inserting one path into the canonical tree of an independent map
appends that path's entry, in canonical-tree form. -/
theorem insertSegs_buildCanon : ∀ (p : List Str) (v : Value) (M : SegMap),
    NonNilPaths M → IndepPaths (M ++ [(p, v)]) → p ≠ [] →
    insertSegs p v (buildCanon M) = some (buildCanon (M ++ [(p, v)]))
  | [], v, M, _, _, hne => absurd rfl hne
  | [last], v, M, hnn, hind, _ => by
    have hcross := indep_append_cross hind
    have hfresh : last ∉ headsOf M := by
      intro hmem
      obtain ⟨e, he, q, hq⟩ := mem_headsOf.1 hmem
      have h1 := (hcross e he).2
      rw [hq] at h1
      rw [segPre_single_cons] at h1
      exact Bool.noConfusion h1
    have hMnone : M.find? (fun e => decide (e.1 = [last])) = none := by
      rw [List.find?_eq_none]
      intro e he
      simp only [decide_eq_true_eq]
      intro hq
      exact hfresh (mem_headsOf.2 ⟨e, he, [], hq⟩)
    rw [insertSegs]
    have hkeys : last ∉ dictKeys (buildCanon M) := by
      rw [dictKeys_buildCanon]
      exact fun h => hfresh (mem_setList.1 h)
    rw [dictInsert_fresh hkeys]
    have hheads : headsOf (M ++ [(([last] : List Str), v)]) = headsOf M ++ [last] := by
      rw [headsOf_append]
      rfl
    rw [buildCanon_eq, buildCanon_eq, hheads, setList_append_not_mem hfresh,
      List.map_append]
    have hnode : canonNode (M ++ [(([last] : List Str), v)]) last = v := by
      rw [canonNode, List.find?_append, hMnone]
      simp
    have hmap : List.map (fun s => (s, canonNode (M ++ [(([last] : List Str), v)]) s))
        (setList (headsOf M)) =
        List.map (fun s => (s, canonNode M s)) (setList (headsOf M)) := by
      refine List.map_congr_left ?_
      intro t ht
      have htne : ¬((([last] : List Str), v).1 = [t]) := by
        simp only [List.cons.injEq, and_true]
        intro hlt
        exact hfresh (by rw [hlt]; exact mem_setList.1 ht)
      rw [canonNode_append_irrelevant htne rfl]
    rw [hmap]
    simp [hnode]
  | s :: p2 :: ps, v, M, hnn, hind, _ => by
    have hcross := indep_append_cross hind
    have hMnone : M.find? (fun e => decide (e.1 = [s])) = none := by
      rw [List.find?_eq_none]
      intro e he
      simp only [decide_eq_true_eq]
      intro hq
      have h1 := (hcross e he).1
      rw [hq, segPre_single_cons] at h1
      exact Bool.noConfusion h1
    have hstrip : stripHead s (M ++ [((s :: p2 :: ps : List Str), v)]) =
        stripHead s M ++ [((p2 :: ps : List Str), v)] := by
      rw [stripHead_append]
      congr 1
      rw [stripHead, List.filterMap_cons]
      simp [stripEntry]
    have hfind2 : List.find? (fun e => decide (e.1 = [s]))
        [((s :: p2 :: ps : List Str), v)] = none := by
      simp
    have hindS : IndepPaths (stripHead s M ++ [((p2 :: ps : List Str), v)]) := by
      refine List.pairwise_append.2 ⟨?_, List.pairwise_singleton _ _, ?_⟩
      · rw [stripHead, List.pairwise_filterMap]
        refine List.Pairwise.imp ?_ (indep_append_left hind)
        intro e1 e2 h12 x hx y hy
        rw [Option.mem_def] at hx hy
        obtain ⟨p1, w1⟩ := e1
        obtain ⟨q1, w2⟩ := e2
        match p1, hx with
        | [], hx => exact Option.noConfusion hx
        | [a1], hx => exact Option.noConfusion hx
        | a1 :: b1 :: t1, hx =>
          match q1, hy with
          | [], hy => exact Option.noConfusion hy
          | [a2], hy => exact Option.noConfusion hy
          | a2 :: b2 :: t2, hy =>
            rw [stripEntry] at hx hy
            by_cases ha1 : a1 = s
            · by_cases ha2 : a2 = s
              · rw [if_pos ha1] at hx
                rw [if_pos ha2] at hy
                cases hx
                cases hy
                subst ha1
                subst ha2
                have hp1 := h12.1
                have hp2 := h12.2
                rw [segPre_cons_same] at hp1 hp2
                exact ⟨hp1, hp2⟩
              · rw [if_neg ha2] at hy
                exact Option.noConfusion hy
            · rw [if_neg ha1] at hx
              exact Option.noConfusion hx
      · intro a ha b hb
        rw [List.mem_singleton] at hb
        subst hb
        rw [stripHead, List.mem_filterMap] at ha
        obtain ⟨e0, he0, hmap⟩ := ha
        obtain ⟨p0, w0⟩ := e0
        match p0, hmap, he0 with
        | [], hmap, he0 => exact Option.noConfusion hmap
        | [a0], hmap, he0 => exact Option.noConfusion hmap
        | a0 :: b0 :: t0, hmap, he0 =>
          rw [stripEntry] at hmap
          by_cases ha0 : a0 = s
          · rw [if_pos ha0] at hmap
            cases hmap
            subst ha0
            have hc := hcross _ he0
            have hp1 := hc.1
            have hp2 := hc.2
            rw [segPre_cons_same] at hp1 hp2
            exact ⟨hp1, hp2⟩
          · rw [if_neg ha0] at hmap
            exact Option.noConfusion hmap
    rw [insertSegs, pyLookup_buildCanon]
    by_cases hs : s ∈ headsOf M
    · rw [if_pos hs, canonNode_of_find_none hMnone]
      have IH := insertSegs_buildCanon (p2 :: ps) v (stripHead s M)
        (nonNil_stripHead s M) hindS (by simp)
      show (match insertSegs (p2 :: ps) v (buildCanon (stripHead s M)) with
        | some sub => some (dictInsert (buildCanon M) s (Value.dict sub))
        | none => none) = _
      rw [IH]
      show some (dictInsert (buildCanon M) s
          (Value.dict (buildCanon (stripHead s M ++ [((p2 :: ps : List Str), v)])))) = _
      congr 1
      rw [buildCanon_eq M, buildCanon_eq (M ++ _)]
      have hheads : headsOf (M ++ [((s :: p2 :: ps : List Str), v)]) = headsOf M ++ [s] := by
        rw [headsOf_append]
        rfl
      rw [hheads, setList_append_mem hs,
        dictInsert_map_mem (setList_nodup _) (mem_setList.2 hs)]
      refine List.map_congr_left ?_
      intro t ht
      dsimp only
      by_cases hts : t = s
      · subst hts
        rw [if_pos rfl]
        have hnone2 : (M ++ [((t :: p2 :: ps : List Str), v)]).find?
            (fun e => decide (e.1 = [t])) = none := by
          rw [List.find?_append, hMnone, hfind2]
          rfl
        rw [canonNode_of_find_none hnone2, hstrip]
      · rw [if_neg hts]
        have htne : ¬(((s :: p2 :: ps : List Str), v).1 = [t]) := by simp
        have hse : stripEntry t ((s :: p2 :: ps : List Str), v) = none := by
          rw [stripEntry, if_neg (fun h => hts h.symm)]
        exact congrArg (Prod.mk t) (canonNode_append_irrelevant htne hse).symm
    · rw [if_neg hs]
      have IH := insertSegs_buildCanon (p2 :: ps) v [] (fun e he => absurd he (by simp))
        (by rw [List.nil_append]; exact List.pairwise_singleton _ _) (by simp)
      rw [buildCanon_nil] at IH
      show (match insertSegs (p2 :: ps) v [] with
        | some sub => some (dictInsert (buildCanon M) s (Value.dict sub))
        | none => none) = _
      rw [IH]
      show some (dictInsert (buildCanon M) s
          (Value.dict (buildCanon ([] ++ [((p2 :: ps : List Str), v)])))) = _
      rw [List.nil_append]
      have hkeys : s ∉ dictKeys (buildCanon M) := by
        rw [dictKeys_buildCanon]
        exact fun h => hs (mem_setList.1 h)
      rw [dictInsert_fresh hkeys]
      congr 1
      rw [buildCanon_eq M, buildCanon_eq (M ++ _)]
      have hheads : headsOf (M ++ [((s :: p2 :: ps : List Str), v)]) = headsOf M ++ [s] := by
        rw [headsOf_append]
        rfl
      rw [hheads, setList_append_not_mem hs, List.map_append]
      have hnone2 : (M ++ [((s :: p2 :: ps : List Str), v)]).find?
          (fun e => decide (e.1 = [s])) = none := by
        rw [List.find?_append, hMnone, hfind2]
        rfl
      have hnode : canonNode (M ++ [((s :: p2 :: ps : List Str), v)]) s =
          Value.dict (buildCanon [((p2 :: ps : List Str), v)]) := by
        rw [canonNode_of_find_none hnone2, hstrip, stripHead_eq_nil_of_not_mem hs,
          List.nil_append]
      have hmap : List.map (fun t => (t, canonNode (M ++ [((s :: p2 :: ps : List Str), v)]) t))
          (setList (headsOf M)) =
          List.map (fun t => (t, canonNode M t)) (setList (headsOf M)) := by
        refine List.map_congr_left ?_
        intro t ht
        have hts : t ≠ s := fun h => hs (h ▸ mem_setList.1 ht)
        have htne : ¬(((s :: p2 :: ps : List Str), v).1 = [t]) := by simp
        have hse : stripEntry t ((s :: p2 :: ps : List Str), v) = none := by
          rw [stripEntry, if_neg (fun h => hts h.symm)]
        rw [canonNode_append_irrelevant htne hse]
      rw [hmap]
      simp [hnode]

/-- Folding the insertions of an independent seg map onto the canonical
tree of a prefix accumulates the whole map. -/
theorem unflattenSegs_fold : ∀ (L M : SegMap),
    NonNilPaths (M ++ L) → IndepPaths (M ++ L) →
    L.foldlM (fun R e => insertSegs e.1 e.2 R) (buildCanon M) =
      some (buildCanon (M ++ L))
  | [], M, _, _ => by simp [List.foldlM]
  | e :: L2, M, hnn, hind => by
    obtain ⟨p, v⟩ := e
    rw [List.foldlM_cons]
    have hsub : (M ++ [(p, v)]).Sublist (M ++ (p, v) :: L2) :=
      (List.append_sublist_append_left M).2
        (List.cons_sublist_cons.2 (List.nil_sublist L2))
    have h1 : insertSegs p v (buildCanon M) = some (buildCanon (M ++ [(p, v)])) := by
      refine insertSegs_buildCanon p v M ?_ ?_ ?_
      · exact fun e2 he2 => hnn e2 (List.mem_append_left _ he2)
      · exact indepPaths_sublist hsub hind
      · exact hnn (p, v) (List.mem_append_right _ (List.mem_cons_self _ _))
    rw [h1]
    show (L2.foldlM (fun R e => insertSegs e.1 e.2 R) (buildCanon (M ++ [(p, v)]))) = _
    have := unflattenSegs_fold L2 (M ++ [(p, v)])
      (by rw [List.append_assoc]; exact hnn)
      (by rw [List.append_assoc]; exact hind)
    rw [this, List.append_assoc]
    rfl

/-- unflatten succeeds on independent non-empty paths and builds the
canonical tree. -/
theorem unflattenSegs_eq_buildCanon {L : SegMap} (hnn : NonNilPaths L)
    (hind : IndepPaths L) : unflattenSegs L = some (buildCanon L) := by
  rw [unflattenSegs, ← buildCanon_nil]
  have := unflattenSegs_fold L [] (by simpa using hnn) (by simpa using hind)
  simpa using this

mutual

/-- The segment-path form of the flat entries: relative paths with the
ambient absolute depth `n` of the prefix tracked for the truncation test. -/
def flatSegsR : Dict → Int → Nat → SegMap
  | [], _, _ => []
  | (key, value) :: rest, depth, n =>
    flatSegEntry key value depth n ++ flatSegsR rest depth n

def flatSegEntry (key : Str) (value : Value) (depth : Int) (n : Nat) : SegMap :=
  if depth > 0 ∧ ((n + 1 : Nat) : Int) ≥ depth then [([key], value)]
  else
    match value with
    | Value.dict [] => [([key], value)]
    | Value.dict (e :: d) =>
      (flatSegsR (e :: d) depth (n + 1)).map (fun e2 => (key :: e2.1, e2.2))
    | _ => [([key], value)]

end

theorem flatSegEntry_heads (key : Str) (value : Value) (depth : Int) (n : Nat) :
    ∀ e ∈ flatSegEntry key value depth n, ∃ q, e.1 = key :: q := by
  intro e he
  cases value with
  | dict d =>
    cases d with
    | nil =>
      simp only [flatSegEntry] at he
      split at he <;> simp_all
    | cons e0 d2 =>
      simp only [flatSegEntry] at he
      split at he
      · simp_all
      · rw [List.mem_map] at he
        obtain ⟨e2, he2, heq⟩ := he
        exact ⟨e2.1, by rw [← heq]⟩
  | null =>
    simp only [flatSegEntry] at he
    split at he <;> simp_all
  | bool b =>
    simp only [flatSegEntry] at he
    split at he <;> simp_all
  | int m =>
    simp only [flatSegEntry] at he
    split at he <;> simp_all
  | str s =>
    simp only [flatSegEntry] at he
    split at he <;> simp_all
  | list xs =>
    simp only [flatSegEntry] at he
    split at he <;> simp_all

theorem flatSegsR_heads : ∀ (data : Dict) (depth : Int) (n : Nat),
    ∀ e ∈ flatSegsR data depth n, ∃ kv ∈ data, ∃ q, e.1 = kv.1 :: q
  | [], depth, n => by simp [flatSegsR]
  | (key, value) :: rest, depth, n => by
    intro e he
    rw [flatSegsR, List.mem_append] at he
    rcases he with he | he
    · obtain ⟨q, hq⟩ := flatSegEntry_heads key value depth n e he
      exact ⟨(key, value), List.mem_cons_self _ _, q, hq⟩
    · obtain ⟨kv, hkv, q, hq⟩ := flatSegsR_heads rest depth n e he
      exact ⟨kv, List.mem_cons_of_mem _ hkv, q, hq⟩

theorem flatSegsR_nonNil : ∀ (data : Dict) (depth : Int) (n : Nat),
    NonNilPaths (flatSegsR data depth n)
  | [], depth, n => by intro e he; simp [flatSegsR] at he
  | (key, value) :: rest, depth, n => by
    intro e he
    rw [flatSegsR, List.mem_append] at he
    rcases he with he | he
    · obtain ⟨q, hq⟩ := flatSegEntry_heads key value depth n e he
      simp [hq]
    · exact flatSegsR_nonNil rest depth n e he

mutual

theorem flatSegEntry_ne_nil (key : Str) (value : Value) (depth : Int) (n : Nat) :
    flatSegEntry key value depth n ≠ [] := by
  cases value with
  | dict d =>
    cases d with
    | nil => simp only [flatSegEntry]; split <;> simp
    | cons e0 d2 =>
      simp only [flatSegEntry]
      split
      · simp
      · simp only [ne_eq, List.map_eq_nil_iff]
        exact flatSegsR_cons_ne_nil e0 d2 depth (n + 1)
  | null => simp only [flatSegEntry]; split <;> simp
  | bool b => simp only [flatSegEntry]; split <;> simp
  | int m => simp only [flatSegEntry]; split <;> simp
  | str s => simp only [flatSegEntry]; split <;> simp
  | list xs => simp only [flatSegEntry]; split <;> simp
termination_by (sizeOf value, 1)
decreasing_by all_goals (simp_wf <;> omega)

theorem flatSegsR_cons_ne_nil (e0 : Str × Value) (d2 : List (Str × Value))
    (depth : Int) (n : Nat) : flatSegsR (e0 :: d2) depth n ≠ [] := by
  obtain ⟨key, value⟩ := e0
  rw [flatSegsR]
  simp only [ne_eq, List.append_eq_nil, not_and]
  intro h
  exact absurd h (flatSegEntry_ne_nil key value depth n)
termination_by (sizeOf (e0 :: d2), 2)
decreasing_by all_goals (simp_wf <;> omega)

end


/-! ### Helpers for inverting the segment-level flatten -/

/-- Stripping the common head of a uniformly prefixed map recovers the
original map. -/
theorem stripHead_map_cons (s : Str) :
    ∀ (L : SegMap), NonNilPaths L →
      stripHead s (L.map (fun e => (s :: e.1, e.2))) = L
  | [], _ => rfl
  | (p, v) :: rest, hnn => by
    have hp : p ≠ [] := hnn (p, v) (List.mem_cons_self _ _)
    match p, hp with
    | q0 :: qs, _ =>
      rw [List.map_cons, stripHead_cons]
      have hse : stripEntry s ((s :: q0 :: qs : List Str), v) = some (q0 :: qs, v) := by
        simp [stripEntry]
      rw [hse, stripHead_map_cons s rest (fun e2 he2 => hnn e2 (List.mem_cons_of_mem _ he2))]

/-- Dedup of a nonempty constant block followed by a tail. -/
theorem setListAux_const_append [DecidableEq α] (k : α) :
    ∀ (block : List α), block ≠ [] → (∀ b ∈ block, b = k) →
      ∀ (seen xs : List α), setListAux seen (block ++ xs) =
        if k ∈ seen then setListAux seen xs else k :: setListAux (k :: seen) xs
  | [], hne, _ => absurd rfl hne
  | b :: block2, _, hb => by
    intro seen xs
    have hbk : b = k := hb b (List.mem_cons_self _ _)
    subst hbk
    cases block2 with
    | nil =>
      rw [List.cons_append, List.nil_append, setListAux]
    | cons c block3 =>
      rw [List.cons_append, setListAux]
      by_cases hk : b ∈ seen
      · rw [if_pos hk, if_pos hk,
          setListAux_const_append b (c :: block3) (by simp)
            (fun x hx => hb x (List.mem_cons_of_mem _ hx)) seen xs,
          if_pos hk]
      · rw [if_neg hk, if_neg hk,
          setListAux_const_append b (c :: block3) (by simp)
            (fun x hx => hb x (List.mem_cons_of_mem _ hx)) (b :: seen) xs,
          if_pos (List.mem_cons_self _ _)]

/-- A seen element that never occurs in the list is irrelevant to dedup. -/
theorem setListAux_seen_not_mem [DecidableEq α] {x : α} :
    ∀ (xs seen : List α), x ∉ xs → setListAux (x :: seen) xs = setListAux seen xs
  | [], _, _ => rfl
  | y :: ys, seen, hx => by
    have hxys : x ∉ ys := fun h => hx (List.mem_cons_of_mem _ h)
    have hxy : x ≠ y := fun h => hx (h ▸ List.mem_cons_self _ _)
    rw [setListAux, setListAux]
    by_cases hy : y ∈ seen
    · rw [if_pos (List.mem_cons_of_mem _ hy), if_pos hy,
        setListAux_seen_not_mem ys seen hxys]
    · have hyxs : y ∉ x :: seen := by
        rw [List.mem_cons]
        rintro (h | h)
        · exact hxy h.symm
        · exact hy h
      rw [if_neg hyxs, if_neg hy]
      have hswap : setListAux (y :: x :: seen) ys = setListAux (x :: y :: seen) ys := by
        refine setListAux_congr (fun z => ?_) ys
        simp only [List.mem_cons]
        tauto
      rw [hswap, setListAux_seen_not_mem ys (y :: seen) hxys]

/-- The canonical node of a head whose single-segment entry comes first. -/
theorem canonNode_single (key : Str) (v : Value) (R : SegMap) :
    canonNode ((([key] : List Str), v) :: R) key = v := by
  rw [canonNode, List.find?_cons_of_pos _ (by simp)]
  rfl

/-- A block of entries all starting with a different head segment is
irrelevant to the canonical node of `s`. -/
theorem canonNode_cons_block {A B : SegMap} {k s : Str}
    (hA : ∀ e ∈ A, ∃ q, e.1 = k :: q) (hks : k ≠ s) :
    canonNode (A ++ B) s = canonNode B s := by
  have hfind : A.find? (fun e => decide (e.1 = [s])) = none := by
    rw [List.find?_eq_none]
    intro e he
    obtain ⟨q, hq⟩ := hA e he
    simp only [decide_eq_true_eq]
    intro hc
    rw [hq] at hc
    injection hc with h1 _
    exact hks h1
  have hstrip : stripHead s A = [] := by
    refine stripHead_eq_nil_of_not_mem ?_
    intro hmem
    obtain ⟨e, he, q, hq⟩ := mem_headsOf.1 hmem
    obtain ⟨q2, hq2⟩ := hA e he
    rw [hq2] at hq
    injection hq with h1 _
    exact hks h1
  rw [canonNode, canonNode, List.find?_append, hfind, stripHead_append, hstrip,
    List.nil_append]
  simp

/-- Dedup distributes over append: the tail is deduplicated against the
seen set enlarged by the first part. -/
theorem setListAux_append [DecidableEq α] :
    ∀ (A X seen : List α),
      setListAux seen (A ++ X) = setListAux seen A ++ setListAux (A ++ seen) X
  | [], X, seen => by simp [setListAux]
  | a :: A2, X, seen => by
    rw [List.cons_append, setListAux, setListAux]
    by_cases ha : a ∈ seen
    · rw [if_pos ha, if_pos ha, setListAux_append A2 X seen]
      congr 1
      refine setListAux_congr (fun z => ?_) X
      simp only [List.cons_append, List.mem_cons, List.mem_append]
      constructor
      · tauto
      · rintro (hz | hz | hz)
        · subst hz
          exact Or.inr ha
        · exact Or.inl hz
        · exact Or.inr hz
    · rw [if_neg ha, if_neg ha, setListAux_append A2 X (a :: seen), List.cons_append]
      congr 2
      refine setListAux_congr (fun z => ?_) X
      simp only [List.cons_append, List.mem_cons, List.mem_append]
      tauto

/-- Dedup of an append whose first part is already duplicate-free. -/
theorem setList_append_left_nodup [DecidableEq α] {A : List α} (hA : A.Nodup)
    (X : List α) : setList (A ++ X) = A ++ setListAux A X := by
  rw [setList, setListAux_append A X [], setListAux_of_nodup hA]
  congr 1
  · simp
  · exact setListAux_congr (fun z => by simp) X

/-- Independent paths are pairwise distinct. -/
theorem indepPaths_paths_nodup {L : SegMap} (h : IndepPaths L) :
    (L.map (fun e => e.1)).Nodup := by
  have h2 : (L.map (fun e => e.1)).Pairwise (fun a b => a ≠ b) := by
    rw [List.pairwise_map]
    refine h.imp ?_
    intro a b hab hc
    rw [hc] at hab
    have h1 := hab.1
    rw [segPre_refl] at h1
    exact Bool.noConfusion h1
  exact h2


/-! ### Flatten emits independent paths and inverts to the original dict -/

/-- Prefixing every path with a common head preserves independence. -/
theorem indep_map_cons (key : Str) {L : SegMap} (h : IndepPaths L) :
    IndepPaths (L.map (fun e => (key :: e.1, e.2))) := by
  rw [IndepPaths, List.pairwise_map]
  refine List.Pairwise.imp ?_ h
  intro a b hab
  rw [segPre_cons_same, segPre_cons_same]
  exact hab

/-- The paths one entry contributes are pairwise incomparable, given the
independence of the recursive flattening of its value. -/
theorem flatSegEntry_indep_of (key : Str) (value : Value) (depth : Int) (n : Nat)
    (hrec : ∀ e0 d2, value = Value.dict (e0 :: d2) →
      IndepPaths (flatSegsR (e0 :: d2) depth (n + 1))) :
    IndepPaths (flatSegEntry key value depth n) := by
  cases value with
  | dict d =>
    cases d with
    | nil =>
      simp only [flatSegEntry]
      split
      · exact List.pairwise_singleton _ _
      · exact List.pairwise_singleton _ _
    | cons e0 d2 =>
      simp only [flatSegEntry]
      split
      · exact List.pairwise_singleton _ _
      · exact indep_map_cons key (hrec e0 d2 rfl)
  | null =>
    simp only [flatSegEntry]
    split
    · exact List.pairwise_singleton _ _
    · exact List.pairwise_singleton _ _
  | bool b =>
    simp only [flatSegEntry]
    split
    · exact List.pairwise_singleton _ _
    · exact List.pairwise_singleton _ _
  | int m =>
    simp only [flatSegEntry]
    split
    · exact List.pairwise_singleton _ _
    · exact List.pairwise_singleton _ _
  | str s =>
    simp only [flatSegEntry]
    split
    · exact List.pairwise_singleton _ _
    · exact List.pairwise_singleton _ _
  | list xs =>
    simp only [flatSegEntry]
    split
    · exact List.pairwise_singleton _ _
    · exact List.pairwise_singleton _ _

/-- The segment paths flatten emits for a dict with duplicate-free keys
are pairwise incomparable. -/
theorem flatSegsR_indep : ∀ (data : Dict) (depth : Int) (n : Nat),
    (dictKeys data).Nodup → nodupKeysE data = true →
    IndepPaths (flatSegsR data depth n)
  | [], _, _, _, _ => List.Pairwise.nil
  | (key, value) :: rest, depth, n, hk, he => by
    rw [flatSegsR]
    rw [dictKeys_cons, List.nodup_cons] at hk
    simp only [nodupKeysE, Bool.and_eq_true] at he
    have hblock : IndepPaths (flatSegEntry key value depth n) := by
      refine flatSegEntry_indep_of key value depth n ?_
      intro e0 d2 hveq
      have hv := he.1
      rw [hveq] at hv
      simp only [Value.nodupKeys, Bool.and_eq_true, decide_eq_true_eq] at hv
      exact flatSegsR_indep (e0 :: d2) depth (n + 1) hv.1 hv.2
    refine List.pairwise_append.2
      ⟨hblock, flatSegsR_indep rest depth n hk.2 he.2, ?_⟩
    intro a ha b hb
    obtain ⟨qa, hqa⟩ := flatSegEntry_heads key value depth n a ha
    obtain ⟨kv, hkv, qb, hqb⟩ := flatSegsR_heads rest depth n b hb
    have hne : key ≠ kv.1 := by
      intro h
      apply hk.1
      have h2 : kv.1 ∈ rest.map (fun x => x.1) := List.mem_map_of_mem _ hkv
      rw [h]
      exact h2
    have hne2 : kv.1 ≠ key := fun h => hne h.symm
    rw [hqa, hqb]
    constructor
    · rw [segPre_cons_cons]
      simp [hne]
    · rw [segPre_cons_cons]
      simp [hne2]
termination_by data depth n h1 h2 => sizeOf data
decreasing_by all_goals (subst_vars; simp_wf <;> omega)


/-- At or past the depth limit, an entry is emitted as a single-segment
path regardless of its value. -/
theorem flatSegEntry_guard_pos (key : Str) (value : Value) (depth : Int) (n : Nat)
    (hguard : depth > 0 ∧ ((n + 1 : Nat) : Int) ≥ depth) :
    flatSegEntry key value depth n = [(([key] : List Str), value)] := by
  cases value with
  | dict d =>
    cases d with
    | nil =>
      simp only [flatSegEntry]
      rw [if_pos hguard]
    | cons e0 d2 =>
      simp only [flatSegEntry]
      rw [if_pos hguard]
  | null =>
    simp only [flatSegEntry]
    rw [if_pos hguard]
  | bool b =>
    simp only [flatSegEntry]
    rw [if_pos hguard]
  | int m =>
    simp only [flatSegEntry]
    rw [if_pos hguard]
  | str s =>
    simp only [flatSegEntry]
    rw [if_pos hguard]
  | list xs =>
    simp only [flatSegEntry]
    rw [if_pos hguard]

/-- The canonical tree of the segment-level flatten of a dict with
duplicate-free keys (at all levels) is that dict itself: at the segment
level, flatten loses no information, at any depth setting. -/
theorem buildCanon_flatSegsR : ∀ (data : Dict) (depth : Int) (n : Nat),
    (dictKeys data).Nodup → nodupKeysE data = true →
    buildCanon (flatSegsR data depth n) = data
  | [], depth, n, _, _ => by
    rw [flatSegsR]
    exact buildCanon_nil
  | (key, value) :: rest, depth, n, hk, he => by
    rw [dictKeys_cons, List.nodup_cons] at hk
    simp only [nodupKeysE, Bool.and_eq_true] at he
    have hBall : ∀ b ∈ headsOf (flatSegEntry key value depth n), b = key := by
      intro b hb
      obtain ⟨e, heB, q, hq⟩ := mem_headsOf.1 hb
      obtain ⟨q2, hq2⟩ := flatSegEntry_heads key value depth n e heB
      rw [hq2] at hq
      injection hq with h1 _
      exact h1.symm
    have hRheads : ∀ b ∈ headsOf (flatSegsR rest depth n), b ∈ dictKeys rest := by
      intro b hb
      obtain ⟨e, heR, q, hq⟩ := mem_headsOf.1 hb
      obtain ⟨kv, hkv, q2, hq2⟩ := flatSegsR_heads rest depth n e heR
      rw [hq2] at hq
      injection hq with h1 _
      have h2 : kv.1 ∈ rest.map (fun x => x.1) := List.mem_map_of_mem _ hkv
      rw [← h1]
      exact h2
    have hkeyR : key ∉ headsOf (flatSegsR rest depth n) :=
      fun h => hk.1 (hRheads key h)
    have hBne : headsOf (flatSegEntry key value depth n) ≠ [] := by
      cases hB : flatSegEntry key value depth n with
      | nil => exact absurd hB (flatSegEntry_ne_nil key value depth n)
      | cons e B2 =>
        have heB : e ∈ flatSegEntry key value depth n := by
          rw [hB]
          exact List.mem_cons_self e B2
        obtain ⟨q, hq⟩ := flatSegEntry_heads key value depth n e heB
        rw [headsOf_cons, hq]
        simp
    have hsetL : setList (headsOf (flatSegEntry key value depth n ++ flatSegsR rest depth n)) =
        key :: setList (headsOf (flatSegsR rest depth n)) := by
      rw [headsOf_append, setList,
        setListAux_const_append key _ hBne hBall [] _,
        if_neg (List.not_mem_nil key),
        setListAux_seen_not_mem _ [] hkeyR]
      rfl
    rw [flatSegsR, buildCanon_eq, hsetL, List.map_cons]
    have htail : (setList (headsOf (flatSegsR rest depth n))).map
        (fun s => (s, canonNode (flatSegEntry key value depth n ++ flatSegsR rest depth n) s)) =
        rest := by
      have hcongr : ∀ s ∈ setList (headsOf (flatSegsR rest depth n)),
          (fun s => (s, canonNode (flatSegEntry key value depth n ++ flatSegsR rest depth n) s)) s =
          (fun s => (s, canonNode (flatSegsR rest depth n) s)) s := by
        intro s hs
        have hks : key ≠ s := by
          intro h
          exact hk.1 (h ▸ hRheads s (mem_setList.1 hs))
        show (s, canonNode _ s) = (s, canonNode _ s)
        rw [canonNode_cons_block (flatSegEntry_heads key value depth n) hks]
      rw [List.map_congr_left hcongr, ← buildCanon_eq,
        buildCanon_flatSegsR rest depth n hk.2 he.2]
    rw [htail]
    have hhead : canonNode (flatSegEntry key value depth n ++ flatSegsR rest depth n) key =
        value := by
      by_cases hguard : depth > 0 ∧ ((n + 1 : Nat) : Int) ≥ depth
      · rw [flatSegEntry_guard_pos key value depth n hguard, List.singleton_append,
          canonNode_single]
      · cases value with
        | dict d =>
          cases d with
          | nil =>
            have hB : flatSegEntry key (Value.dict []) depth n =
                [(([key] : List Str), Value.dict [])] := by
              simp only [flatSegEntry]
              rw [if_neg hguard]
            rw [hB, List.singleton_append, canonNode_single]
          | cons e0 d2 =>
            have hB : flatSegEntry key (Value.dict (e0 :: d2)) depth n =
                (flatSegsR (e0 :: d2) depth (n + 1)).map (fun e2 => (key :: e2.1, e2.2)) := by
              simp only [flatSegEntry]
              rw [if_neg hguard]
            have hL' := flatSegsR_nonNil (e0 :: d2) depth (n + 1)
            have hfindB : ((flatSegsR (e0 :: d2) depth (n + 1)).map
                (fun e2 => (key :: e2.1, e2.2))).find?
                (fun e => decide (e.1 = [key])) = none := by
              rw [List.find?_eq_none]
              intro e heB
              rw [List.mem_map] at heB
              obtain ⟨e2, he2, heq⟩ := heB
              simp only [decide_eq_true_eq]
              intro hcontra
              rw [← heq] at hcontra
              have htl : e2.1 = [] := by
                have := congrArg List.tail hcontra
                simpa using this
              exact hL' e2 he2 htl
            have hfindR : (flatSegsR rest depth n).find?
                (fun e => decide (e.1 = [key])) = none := by
              rw [List.find?_eq_none]
              intro e heR
              obtain ⟨kv, hkv, q, hq⟩ := flatSegsR_heads rest depth n e heR
              simp only [decide_eq_true_eq]
              intro hcontra
              rw [hq] at hcontra
              injection hcontra with h1 _
              apply hk.1
              have h2 : kv.1 ∈ rest.map (fun x => x.1) := List.mem_map_of_mem _ hkv
              rw [h1] at h2
              exact h2
            have hstripB : stripHead key ((flatSegsR (e0 :: d2) depth (n + 1)).map
                (fun e2 => (key :: e2.1, e2.2))) = flatSegsR (e0 :: d2) depth (n + 1) :=
              stripHead_map_cons key _ hL'
            have hstripR : stripHead key (flatSegsR rest depth n) = [] :=
              stripHead_eq_nil_of_not_mem hkeyR
            have hv := he.1
            simp only [Value.nodupKeys, Bool.and_eq_true, decide_eq_true_eq] at hv
            rw [hB, canonNode, List.find?_append, hfindB, hfindR, stripHead_append,
              hstripB, hstripR, List.append_nil,
              buildCanon_flatSegsR (e0 :: d2) depth (n + 1) hv.1 hv.2]
            rfl
        | null =>
          have hB : flatSegEntry key Value.null depth n =
              [(([key] : List Str), Value.null)] := by
            simp only [flatSegEntry]
            rw [if_neg hguard]
          rw [hB, List.singleton_append, canonNode_single]
        | bool b =>
          have hB : flatSegEntry key (Value.bool b) depth n =
              [(([key] : List Str), Value.bool b)] := by
            simp only [flatSegEntry]
            rw [if_neg hguard]
          rw [hB, List.singleton_append, canonNode_single]
        | int m =>
          have hB : flatSegEntry key (Value.int m) depth n =
              [(([key] : List Str), Value.int m)] := by
            simp only [flatSegEntry]
            rw [if_neg hguard]
          rw [hB, List.singleton_append, canonNode_single]
        | str s =>
          have hB : flatSegEntry key (Value.str s) depth n =
              [(([key] : List Str), Value.str s)] := by
            simp only [flatSegEntry]
            rw [if_neg hguard]
          rw [hB, List.singleton_append, canonNode_single]
        | list xs =>
          have hB : flatSegEntry key (Value.list xs) depth n =
              [(([key] : List Str), Value.list xs)] := by
            simp only [flatSegEntry]
            rw [if_neg hguard]
          rw [hB, List.singleton_append, canonNode_single]
    rw [hhead]
termination_by data depth n h1 h2 => sizeOf data
decreasing_by all_goals (subst_vars; simp_wf <;> omega)


/-- At or past the depth limit, the specification entry list is the direct
binding regardless of the value. -/
theorem flatEntryD_guard_pos (key : Str) (value : Value) (depth : Int) (p : Str)
    (hguard : depth > 0 ∧ ((splitSep (newKeyOf p key)).length : Int) ≥ depth) :
    flatEntryD key value depth p = [(newKeyOf p key, value)] := by
  cases value with
  | dict d =>
    cases d with
    | nil =>
      simp only [flatEntryD]
      rw [if_pos hguard]
    | cons e0 d2 =>
      simp only [flatEntryD]
      rw [if_pos hguard]
  | null =>
    simp only [flatEntryD]
    rw [if_pos hguard]
  | bool b =>
    simp only [flatEntryD]
    rw [if_pos hguard]
  | int m =>
    simp only [flatEntryD]
    rw [if_pos hguard]
  | str s =>
    simp only [flatEntryD]
    rw [if_pos hguard]
  | list xs =>
    simp only [flatEntryD]
    rw [if_pos hguard]

/-- Per-entry form of the key-splitting correspondence, with the recursive
case supplied as a hypothesis. -/
theorem flatEntryD_segs_of (key : Str) (value : Value) (depth : Int) (p : Str)
    (hk0 : key ≠ []) (hkdot : ('.' : Char) ∉ key)
    (hrec : ∀ e0 d2, value = Value.dict (e0 :: d2) →
      (flatListD (e0 :: d2) depth (newKeyOf p key)).map (fun e => (splitSep e.1, e.2)) =
        (flatSegsR (e0 :: d2) depth ((segs0 p).length + 1)).map
          (fun e2 => ((segs0 p ++ [key]) ++ e2.1, e2.2))) :
    (flatEntryD key value depth p).map (fun e => (splitSep e.1, e.2)) =
      (flatSegEntry key value depth (segs0 p).length).map
        (fun e2 => (segs0 p ++ e2.1, e2.2)) := by
  have hlenN : (splitSep (newKeyOf p key)).length = (segs0 p).length + 1 := by
    rw [splitSep_newKeyOf hkdot, List.length_append]
    rfl
  by_cases hguard : depth > 0 ∧ (((segs0 p).length + 1 : Nat) : Int) ≥ depth
  · have hguard1 : depth > 0 ∧ ((splitSep (newKeyOf p key)).length : Int) ≥ depth := by
      rw [hlenN]
      exact hguard
    rw [flatEntryD_guard_pos key value depth p hguard1,
      flatSegEntry_guard_pos key value depth _ hguard,
      List.map_singleton, List.map_singleton, splitSep_newKeyOf hkdot]
  · have hguard1 : ¬(depth > 0 ∧ ((splitSep (newKeyOf p key)).length : Int) ≥ depth) := by
      rw [hlenN]
      exact hguard
    cases value with
    | dict d =>
      cases d with
      | nil =>
        have hB : flatSegEntry key (Value.dict []) depth (segs0 p).length =
            [(([key] : List Str), Value.dict [])] := by
          simp only [flatSegEntry]
          rw [if_neg hguard]
        have hD : flatEntryD key (Value.dict []) depth p =
            [(newKeyOf p key, Value.dict [])] := by
          simp only [flatEntryD]
          rw [if_neg hguard1]
        rw [hB, hD, List.map_singleton, List.map_singleton, splitSep_newKeyOf hkdot]
      | cons e0 d2 =>
        have hB : flatSegEntry key (Value.dict (e0 :: d2)) depth (segs0 p).length =
            (flatSegsR (e0 :: d2) depth ((segs0 p).length + 1)).map
              (fun e2 => (key :: e2.1, e2.2)) := by
          simp only [flatSegEntry]
          rw [if_neg hguard]
        have hD : flatEntryD key (Value.dict (e0 :: d2)) depth p =
            flatListD (e0 :: d2) depth (newKeyOf p key) := by
          simp only [flatEntryD]
          rw [if_neg hguard1]
        rw [hB, hD, hrec e0 d2 rfl, List.map_map]
        refine List.map_congr_left ?_
        intro e2 _
        show ((segs0 p ++ [key]) ++ e2.1, e2.2) = (segs0 p ++ key :: e2.1, e2.2)
        rw [List.append_assoc, List.singleton_append]
    | null =>
      have hB : flatSegEntry key Value.null depth (segs0 p).length =
          [(([key] : List Str), Value.null)] := by
        simp only [flatSegEntry]
        rw [if_neg hguard]
      have hD : flatEntryD key Value.null depth p = [(newKeyOf p key, Value.null)] := by
        simp only [flatEntryD]
        rw [if_neg hguard1]
      rw [hB, hD, List.map_singleton, List.map_singleton, splitSep_newKeyOf hkdot]
    | bool b =>
      have hB : flatSegEntry key (Value.bool b) depth (segs0 p).length =
          [(([key] : List Str), Value.bool b)] := by
        simp only [flatSegEntry]
        rw [if_neg hguard]
      have hD : flatEntryD key (Value.bool b) depth p =
          [(newKeyOf p key, Value.bool b)] := by
        simp only [flatEntryD]
        rw [if_neg hguard1]
      rw [hB, hD, List.map_singleton, List.map_singleton, splitSep_newKeyOf hkdot]
    | int m =>
      have hB : flatSegEntry key (Value.int m) depth (segs0 p).length =
          [(([key] : List Str), Value.int m)] := by
        simp only [flatSegEntry]
        rw [if_neg hguard]
      have hD : flatEntryD key (Value.int m) depth p =
          [(newKeyOf p key, Value.int m)] := by
        simp only [flatEntryD]
        rw [if_neg hguard1]
      rw [hB, hD, List.map_singleton, List.map_singleton, splitSep_newKeyOf hkdot]
    | str s =>
      have hB : flatSegEntry key (Value.str s) depth (segs0 p).length =
          [(([key] : List Str), Value.str s)] := by
        simp only [flatSegEntry]
        rw [if_neg hguard]
      have hD : flatEntryD key (Value.str s) depth p =
          [(newKeyOf p key, Value.str s)] := by
        simp only [flatEntryD]
        rw [if_neg hguard1]
      rw [hB, hD, List.map_singleton, List.map_singleton, splitSep_newKeyOf hkdot]
    | list xs =>
      have hB : flatSegEntry key (Value.list xs) depth (segs0 p).length =
          [(([key] : List Str), Value.list xs)] := by
        simp only [flatSegEntry]
        rw [if_neg hguard]
      have hD : flatEntryD key (Value.list xs) depth p =
          [(newKeyOf p key, Value.list xs)] := by
        simp only [flatEntryD]
        rw [if_neg hguard1]
      rw [hB, hD, List.map_singleton, List.map_singleton, splitSep_newKeyOf hkdot]

/-- The string-level flat entries, after splitting their keys at the
separator, are the segment-level flat entries prefixed with the parent
path: flatten manipulates keys exactly as path concatenation, provided
every key is non-empty and separator-free. -/
theorem flatListD_segs : ∀ (data : Dict) (depth : Int) (p : Str),
    sepFreeE data = true →
    (flatListD data depth p).map (fun e => (splitSep e.1, e.2)) =
      (flatSegsR data depth (segs0 p).length).map (fun e2 => (segs0 p ++ e2.1, e2.2))
  | [], depth, p, _ => by
    rw [flatListD, flatSegsR]
    rfl
  | (key, value) :: rest, depth, p, hsf => by
    simp only [sepFreeE, Bool.and_eq_true, decide_eq_true_eq] at hsf
    obtain ⟨⟨⟨hk0, hkdot⟩, hvsf⟩, hrest⟩ := hsf
    rw [flatListD, flatSegsR, List.map_append, List.map_append,
      flatListD_segs rest depth p hrest]
    congr 1
    refine flatEntryD_segs_of key value depth p hk0 hkdot ?_
    intro e0 d2 hveq
    have hsub : sepFreeE (e0 :: d2) = true := by
      rw [hveq] at hvsf
      exact hvsf
    have hrec := flatListD_segs (e0 :: d2) depth (newKeyOf p key) hsub
    rw [segs0_newKeyOf hk0 hkdot, List.length_append] at hrec
    exact hrec
termination_by data depth p h => sizeOf data
decreasing_by all_goals (subst_vars; simp_wf <;> omega)


/-- The flat keys emitted at the root are pairwise distinct for a
well-formed document. -/
theorem flatListD_keysNodup (data : Dict) (depth : Int)
    (hsf : sepFreeE data = true) (hk : (dictKeys data).Nodup)
    (he : nodupKeysE data = true) :
    (dictKeys (flatListD data depth [])).Nodup := by
  have hseg := flatSegsR_indep data depth 0 hk he
  have hnd := indepPaths_paths_nodup hseg
  have hms := flatListD_segs data depth [] hsf
  have h2 : (flatListD data depth []).map (fun e => splitSep e.1) =
      (flatSegsR data depth 0).map (fun e => e.1) := by
    have h3 := congrArg (List.map (fun e : List Str × Value => e.1)) hms
    rw [List.map_map, List.map_map] at h3
    simpa using h3
  have h4 : ((dictKeys (flatListD data depth [])).map splitSep).Nodup := by
    have h5 : (dictKeys (flatListD data depth [])).map splitSep =
        (flatListD data depth []).map (fun e => splitSep e.1) := by
      rw [dictKeys, List.map_map]
      rfl
    rw [h5, h2]
    exact hnd
  exact h4.of_map

/-- At depth 1 the emitted entry list is the document itself: every root
key has exactly one segment, which meets the depth limit at once. -/
theorem flatListD_one : ∀ (data : Dict), flatListD data 1 [] = data
  | [] => by rw [flatListD]
  | (key, value) :: rest => by
    have hguard : (1 : Int) > 0 ∧ ((splitSep (newKeyOf [] key)).length : Int) ≥ 1 := by
      refine ⟨by norm_num, ?_⟩
      have := splitSep_length_pos (newKeyOf [] key)
      omega
    rw [flatListD, flatEntryD_guard_pos key value 1 [] hguard, flatListD_one rest]
    rw [newKeyOf, if_pos rfl]
    rfl

/-- `flatten_dict` at the root is the replay of the emitted entry list,
which for a well-formed document has distinct keys and so is the entry
list itself. -/
theorem flatten_dict_eq_flatListD (data : Dict) (depth : Int)
    (hsf : sepFreeE data = true) (hk : (dictKeys data).Nodup)
    (he : nodupKeysE data = true) :
    flatten_dict data depth [] = flatListD data depth [] := by
  by_cases h1 : depth = 1
  · subst h1
    rw [flatten_dict, if_pos ⟨rfl, rfl⟩, flatListD_one]
  · rw [flatten_dict, if_neg (fun h => h1 h.1),
      flatten_items_eq data depth [] [] (by simp),
      dictUpdate_nil_of_nodup (flatListD_keysNodup data depth hsf hk he)]

/-- The flatten output always has duplicate-free keys when the input does:
the accumulator is a dict, and the depth-1 shortcut returns the input. -/
theorem flatten_items_keysNodup : ∀ (data : Dict) (depth : Int) (p : Str)
    {items : Dict}, (dictKeys items).Nodup →
    (dictKeys (flatten_items data depth p items)).Nodup
  | [], _, _, _, h => h
  | (key, value) :: rest, depth, p, items, h => by
    rw [flatten_items]
    exact flatten_items_keysNodup rest depth p
      (flatten_entry_keysNodup h key value depth p)

theorem flatten_dict_keysNodup (data : Dict) (depth : Int)
    (hk : (dictKeys data).Nodup) :
    (dictKeys (flatten_dict data depth [])).Nodup := by
  rw [flatten_dict]
  split
  · exact hk
  · exact flatten_items_keysNodup data depth [] (by simp)

/-- Round trip: unflattening the flattening of a well-formed document
(non-empty separator-free keys, duplicate-free keys at every level)
returns the document, at every depth setting. -/
theorem flatten_unflatten_id (data : Dict) (depth : Int)
    (hsf : sepFreeE data = true) (hk : (dictKeys data).Nodup)
    (he : nodupKeysE data = true) :
    unflatten_dict (flatten_dict data depth []) = some data := by
  rw [flatten_dict_eq_flatListD data depth hsf hk he,
    unflatten_dict_eq_unflattenSegs]
  have hms := flatListD_segs data depth [] hsf
  have hms2 : (flatListD data depth []).map (fun e => (splitSep e.1, e.2)) =
      flatSegsR data depth 0 := by
    rw [hms]
    simp
  rw [hms2,
    unflattenSegs_eq_buildCanon (flatSegsR_nonNil data depth 0)
      (flatSegsR_indep data depth 0 hk he),
    buildCanon_flatSegsR data depth 0 hk he]


/-! ### The result-building loops of perform_set_operation -/

/-- Assigning a key the value it already holds leaves the dict unchanged. -/
theorem dictInsert_lookup_self : ∀ {d : Dict} {k : Str} {v : Value},
    pyLookup d k = some v → dictInsert d k v = d
  | [], k, v, h => by simp [pyLookup] at h
  | (k2, v2) :: rest, k, v, h => by
    by_cases hk : k2 = k
    · subst hk
      rw [pyLookup, if_pos rfl] at h
      cases h
      rw [dictInsert, if_pos rfl]
    · rw [pyLookup, if_neg hk] at h
      rw [dictInsert, if_neg hk, dictInsert_lookup_self h]

/-- A result-building loop whose inserted value depends only on the key
appends one entry per first occurrence of a key. -/
theorem foldl_dictInsert_proj {β : Type} (key : β → Str) (f : Str → Value) :
    ∀ (ps : List β) (seen : List Str) (acc : Dict),
      (∀ k, k ∈ dictKeys acc ↔ k ∈ seen) →
      (∀ k ∈ seen, pyLookup acc k = some (f k)) →
      ps.foldl (fun a p => dictInsert a (key p) (f (key p))) acc =
        acc ++ (setListAux seen (ps.map key)).map (fun k => (k, f k))
  | [], seen, acc, _, _ => by simp [setListAux]
  | p0 :: ps2, seen, acc, hmem, hval => by
    rw [List.foldl_cons, List.map_cons, setListAux]
    by_cases hk : key p0 ∈ seen
    · rw [if_pos hk, dictInsert_lookup_self (hval (key p0) hk)]
      exact foldl_dictInsert_proj key f ps2 seen acc hmem hval
    · rw [if_neg hk]
      have hfresh : key p0 ∉ dictKeys acc := fun h => hk ((hmem (key p0)).1 h)
      rw [dictInsert_fresh hfresh]
      have h1 : ∀ k, k ∈ dictKeys (acc ++ [(key p0, f (key p0))]) ↔ k ∈ key p0 :: seen := by
        intro k
        rw [dictKeys_append]
        simp only [List.mem_append, List.mem_cons, hmem k]
        constructor
        · rintro (h | h)
          · exact Or.inr h
          · simp only [dictKeys, List.map_cons, List.map_nil, List.mem_singleton] at h
            exact Or.inl h
        · rintro (h | h)
          · exact Or.inr (by simp [dictKeys, h])
          · exact Or.inl h
      have h2 : ∀ k ∈ key p0 :: seen,
          pyLookup (acc ++ [(key p0, f (key p0))]) k = some (f k) := by
        intro k hkk
        rw [pyLookup_append]
        rcases List.mem_cons.1 hkk with h | h
        · subst h
          have hnone : pyLookup acc (key p0) = none :=
            (pyLookup_eq_none_iff acc (key p0)).2 hfresh
          rw [hnone]
          simp [pyLookup]
        · rw [hval k h]
      rw [foldl_dictInsert_proj key f ps2 (key p0 :: seen) _ h1 h2,
        List.map_cons, List.append_assoc]
      rfl

/-- The keys-mode result loop in closed form: one entry per distinct key,
resolved with left precedence. -/
theorem buildResult_eq (ks : List Str) (flat1 flat2 : Dict) :
    buildResult ks flat1 flat2 =
      (setList ks).map (fun k => (k, resolveKey flat1 flat2 k)) := by
  rw [buildResult, setList]
  have h := foldl_dictInsert_proj (fun k : Str => k) (resolveKey flat1 flat2) ks [] []
    (by simp) (by simp)
  simpa using h

/-- The kv-mode union/symdiff result loop in closed form. -/
theorem buildResolve_eq (ps : List (Str × HValue)) (flat1 flat2 : Dict) :
    buildResolve ps flat1 flat2 =
      (setList (ps.map (fun p => p.1))).map (fun k => (k, resolveKey flat1 flat2 k)) := by
  rw [buildResolve, setList]
  have h := foldl_dictInsert_proj (fun p : Str × HValue => p.1) (resolveKey flat1 flat2)
    ps [] [] (by simp) (by simp)
  simpa using h

/-- The kv-mode dict comprehension in closed form. -/
theorem buildFrom_eq (ps : List (Str × HValue)) (src : Dict) :
    buildFrom ps src =
      (setList (ps.map (fun p => p.1))).map
        (fun k => (k, (pyLookup src k).getD Value.null)) := by
  rw [buildFrom, setList]
  have h := foldl_dictInsert_proj (fun p : Str × HValue => p.1)
    (fun k => (pyLookup src k).getD Value.null) ps [] [] (by simp) (by simp)
  simpa using h

/-- On duplicate-free keys, membership pins the looked-up value. -/
theorem pyLookup_of_mem_nodup : ∀ (d : Dict), (dictKeys d).Nodup →
    ∀ (k : Str) (v : Value), (k, v) ∈ d → pyLookup d k = some v
  | [], _, _, _, h => absurd h (List.not_mem_nil _)
  | (k2, v2) :: rest, hd, k, v, h => by
    rw [dictKeys_cons, List.nodup_cons] at hd
    rcases List.mem_cons.1 h with h1 | h1
    · cases h1
      rw [pyLookup, if_pos rfl]
    · have hne : k2 ≠ k := by
        intro he
        apply hd.1
        have h2 : (k, v).1 ∈ rest.map (fun x => x.1) := List.mem_map_of_mem _ h1
        rw [he]
        exact h2
      rw [pyLookup, if_neg hne]
      exact pyLookup_of_mem_nodup rest hd.2 k v h1

/-- Rebuilding a dict from its own keys by lookup is the identity. -/
theorem keys_map_lookup (w : Value) : ∀ {d : Dict}, (dictKeys d).Nodup →
    (dictKeys d).map (fun k => (k, (pyLookup d k).getD w)) = d
  | [], _ => rfl
  | (k2, v2) :: rest, hd => by
    rw [dictKeys_cons, List.nodup_cons] at hd
    rw [dictKeys_cons, List.map_cons, pyLookup, if_pos rfl, Option.getD_some]
    congr 1
    have hcongr : ∀ k ∈ dictKeys rest,
        (fun k => (k, (pyLookup ((k2, v2) :: rest) k).getD w)) k =
        (fun k => (k, (pyLookup rest k).getD w)) k := by
      intro k hk2
      have hne : k2 ≠ k := by
        intro he
        exact hd.1 (he ▸ hk2)
      show (k, (pyLookup ((k2, v2) :: rest) k).getD w) = (k, (pyLookup rest k).getD w)
      rw [pyLookup, if_neg hne]
    rw [List.map_congr_left hcongr, keys_map_lookup w hd.2]

/-- Flattening the empty document gives the empty flat map. -/
theorem flatten_dict_nil (depth : Int) : flatten_dict [] depth [] = [] := by
  rw [flatten_dict]
  split
  · rfl
  · rfl


theorem itemsOf_fst (flat : Dict) :
    (itemsOf flat).map (fun p => p.1) = dictKeys flat := by
  rw [itemsOf, dictKeys, List.map_map]
  rfl

theorem itemsOf_nodup {flat : Dict} (h : (dictKeys flat).Nodup) :
    (itemsOf flat).Nodup := by
  have h2 : ((itemsOf flat).map (fun p => p.1)).Nodup := by
    rw [itemsOf_fst]
    exact h
  exact h2.of_map

theorem mem_itemsOf {flat : Dict} {k : Str} {h : HValue} :
    (k, h) ∈ itemsOf flat ↔ ∃ v, (k, v) ∈ flat ∧ h = make_hashable v := by
  rw [itemsOf, List.mem_map]
  constructor
  · rintro ⟨⟨k2, v2⟩, hkv, heq⟩
    rw [Prod.mk.injEq] at heq
    exact ⟨v2, heq.1 ▸ hkv, heq.2.symm⟩
  · rintro ⟨v, hv, he⟩
    exact ⟨(k, v), hv, by rw [he]⟩

/-- Union with the empty document on the left returns the flattening of
the other document, in both compare modes. -/
theorem perform_core_union_nil_left (B : Dict) (mode : Str) (depth : Int)
    (hB : (dictKeys (flatten_dict B depth [])).Nodup) :
    perform_core [] B "union".toList mode depth = flatten_dict B depth [] := by
  simp only [perform_core, flatten_dict_nil]
  by_cases hm : mode = "keys".toList
  · rw [if_pos hm]
    simp only [if_true]
    have hkeys1 : setList (dictKeys ([] : Dict)) = [] := rfl
    rw [hkeys1]
    have hunion : pyUnion ([] : List Str) (setList (dictKeys (flatten_dict B depth []))) =
        setList (dictKeys (flatten_dict B depth [])) := by
      rw [pyUnion, List.nil_append]
      refine List.filter_eq_self.2 ?_
      intro a _
      simp
    rw [hunion, buildResult_eq, setList_of_nodup (setList_nodup _), setList_of_nodup hB]
    have hres : ∀ k ∈ dictKeys (flatten_dict B depth []),
        (fun k => (k, resolveKey [] (flatten_dict B depth []) k)) k =
        (fun k => (k, (pyLookup (flatten_dict B depth []) k).getD Value.null)) k := by
      intro k _
      show (k, resolveKey [] (flatten_dict B depth []) k) = _
      rw [resolveKey]
      rfl
    rw [List.map_congr_left hres, keys_map_lookup Value.null hB]
  · rw [if_neg hm]
    simp only [if_true]
    have hitems1 : setList (itemsOf ([] : Dict)) = [] := rfl
    rw [hitems1]
    have hunion : pyUnion ([] : List (Str × HValue))
        (setList (itemsOf (flatten_dict B depth []))) =
        setList (itemsOf (flatten_dict B depth [])) := by
      rw [pyUnion, List.nil_append]
      refine List.filter_eq_self.2 ?_
      intro a _
      simp
    rw [hunion, buildResolve_eq, setList_of_nodup (itemsOf_nodup hB), itemsOf_fst,
      setList_of_nodup hB]
    have hres : ∀ k ∈ dictKeys (flatten_dict B depth []),
        (fun k => (k, resolveKey [] (flatten_dict B depth []) k)) k =
        (fun k => (k, (pyLookup (flatten_dict B depth []) k).getD Value.null)) k := by
      intro k _
      show (k, resolveKey [] (flatten_dict B depth []) k) = _
      rw [resolveKey]
      rfl
    rw [List.map_congr_left hres, keys_map_lookup Value.null hB]


/-- Intersection is commutative in its key set before the unflatten step,
and under any non-keys compare mode the two results carry values with
equal canonical (make_hashable) forms. -/
theorem perform_core_intersect_comm (A B : Dict) (mode : Str) (depth : Int)
    (hA : (dictKeys (flatten_dict A depth [])).Nodup)
    (hB : (dictKeys (flatten_dict B depth [])).Nodup) :
    (∀ k, k ∈ dictKeys (perform_core A B "intersect".toList mode depth) ↔
      k ∈ dictKeys (perform_core B A "intersect".toList mode depth)) ∧
    (mode ≠ "keys".toList → ∀ k v1 v2,
      pyLookup (perform_core A B "intersect".toList mode depth) k = some v1 →
      pyLookup (perform_core B A "intersect".toList mode depth) k = some v2 →
      make_hashable v1 = make_hashable v2) := by
  by_cases hm : mode = "keys".toList
  · have hco : ∀ (X Y : Dict), perform_core X Y "intersect".toList mode depth =
        buildResult (pyInter (setList (dictKeys (flatten_dict X depth [])))
          (setList (dictKeys (flatten_dict Y depth []))))
          (flatten_dict X depth []) (flatten_dict Y depth []) := by
      intro X Y
      simp only [perform_core]
      rw [if_pos hm,
        if_neg (show ¬("intersect".toList = "union".toList) from by decide)]
      simp only [if_true]
    constructor
    · intro k
      rw [hco A B, hco B A, buildResult_eq, buildResult_eq, dictKeys_map_keys,
        dictKeys_map_keys]
      simp only [mem_setList, pyInter, List.mem_filter, decide_eq_true_eq]
      tauto
    · intro hmk
      exact absurd hm hmk
  · have hco : ∀ (X Y : Dict), perform_core X Y "intersect".toList mode depth =
        buildFrom (pyInter (setList (itemsOf (flatten_dict X depth [])))
          (setList (itemsOf (flatten_dict Y depth []))))
          (flatten_dict X depth []) := by
      intro X Y
      simp only [perform_core]
      rw [if_neg hm,
        if_neg (show ¬("intersect".toList = "union".toList) from by decide)]
      simp only [if_true]
    have hmem : ∀ (X Y : Dict) (k : Str),
        k ∈ setList ((pyInter (setList (itemsOf (flatten_dict X depth [])))
          (setList (itemsOf (flatten_dict Y depth [])))).map (fun p => p.1)) ↔
        ∃ h0, (k, h0) ∈ itemsOf (flatten_dict X depth []) ∧
          (k, h0) ∈ itemsOf (flatten_dict Y depth []) := by
      intro X Y k
      simp only [mem_setList, List.mem_map, pyInter, List.mem_filter,
        decide_eq_true_eq]
      constructor
      · rintro ⟨⟨k2, h0⟩, ⟨hp1, hp2⟩, hpk⟩
        cases hpk
        exact ⟨h0, hp1, hp2⟩
      · rintro ⟨h0, hp1, hp2⟩
        exact ⟨(k, h0), ⟨hp1, hp2⟩, rfl⟩
    constructor
    · intro k
      rw [hco A B, hco B A, buildFrom_eq, buildFrom_eq, dictKeys_map_keys,
        dictKeys_map_keys, mem_setList, mem_setList]
      have h1 := hmem A B k
      have h2 := hmem B A k
      rw [mem_setList] at h1 h2
      rw [h1, h2]
      tauto
    · intro _ k v1 v2 h1 h2
      rw [hco A B, buildFrom_eq, pyLookup_map_keys] at h1
      rw [hco B A, buildFrom_eq, pyLookup_map_keys] at h2
      by_cases hk1 : k ∈ setList ((pyInter
          (setList (itemsOf (flatten_dict A depth [])))
          (setList (itemsOf (flatten_dict B depth [])))).map (fun p => p.1))
      · rw [if_pos hk1] at h1
        obtain ⟨h0, hF, hG⟩ := (hmem A B k).1 hk1
        obtain ⟨w1, hw1, he1⟩ := mem_itemsOf.1 hF
        obtain ⟨w2, hw2, he2⟩ := mem_itemsOf.1 hG
        have hk2 : k ∈ setList ((pyInter
            (setList (itemsOf (flatten_dict B depth [])))
            (setList (itemsOf (flatten_dict A depth [])))).map (fun p => p.1)) :=
          (hmem B A k).2 ⟨h0, hG, hF⟩
        rw [if_pos hk2] at h2
        have hl1 : pyLookup (flatten_dict A depth []) k = some w1 :=
          pyLookup_of_mem_nodup _ hA k w1 hw1
        have hl2 : pyLookup (flatten_dict B depth []) k = some w2 :=
          pyLookup_of_mem_nodup _ hB k w2 hw2
        injection h1 with h1e
        injection h2 with h2e
        rw [← h1e, ← h2e, hl1, hl2, Option.getD_some, Option.getD_some, ← he1, ← he2]
      · rw [if_neg hk1] at h1
        exact Option.noConfusion h1


/-- Projecting a union of item lists to keys and deduplicating is the
same as deduplicating the union of the projected key lists: an item whose
key already occurs on the left contributes only a duplicate key. -/
theorem setList_pyUnion_map_key {β : Type} [DecidableEq α] [DecidableEq β]
    (key : β → α) (I1 I2 : List β)
    (hnd1 : (I1.map key).Nodup) (hnd2 : (I2.map key).Nodup) :
    setList ((pyUnion I1 I2).map key) =
      setList (pyUnion (I1.map key) (I2.map key)) := by
  rw [pyUnion, pyUnion, List.map_append,
    setList_append_left_nodup hnd1, setList_append_left_nodup hnd1]
  congr 1
  have hXnd : ((I2.filter (fun y => decide (y ∉ I1))).map key).Nodup := by
    have hsub : ((I2.filter (fun y => decide (y ∉ I1))).map key).Sublist (I2.map key) :=
      List.Sublist.map key (List.filter_sublist I2)
    exact hnd2.sublist hsub
  have hYnd : ((I2.map key).filter (fun y => decide (y ∉ I1.map key))).Nodup :=
    List.Nodup.filter _ hnd2
  rw [setListAux_of_nodup hXnd, setListAux_of_nodup hYnd]
  simp only [List.filter_map, List.filter_filter]
  congr 1
  refine List.filter_congr ?_
  intro e he
  by_cases hk : key e ∈ I1.map key
  · simp [Function.comp, hk]
  · have hnotI : e ∉ I1 := fun hmem => hk (List.mem_map_of_mem _ hmem)
    simp [Function.comp, hk, hnotI]

/-- The deduplicated key sequence of a keys-mode union equals the
deduplicated key sequence of a kv-mode union. -/
theorem union_keys_eq (flat1 flat2 : Dict) (h1 : (dictKeys flat1).Nodup)
    (h2 : (dictKeys flat2).Nodup) :
    setList (pyUnion (setList (dictKeys flat1)) (setList (dictKeys flat2))) =
      setList ((pyUnion (setList (itemsOf flat1)) (setList (itemsOf flat2))).map
        (fun p => p.1)) := by
  rw [setList_of_nodup h1, setList_of_nodup h2, setList_of_nodup (itemsOf_nodup h1),
    setList_of_nodup (itemsOf_nodup h2)]
  have hnd1 : ((itemsOf flat1).map (fun p => p.1)).Nodup := by
    rw [itemsOf_fst]
    exact h1
  have hnd2 : ((itemsOf flat2).map (fun p => p.1)).Nodup := by
    rw [itemsOf_fst]
    exact h2
  rw [setList_pyUnion_map_key (fun p => p.1) (itemsOf flat1) (itemsOf flat2) hnd1 hnd2,
    itemsOf_fst, itemsOf_fst]

/-- Union produces the same result dict under keys mode and kv mode. -/
theorem perform_core_union_modes (A B : Dict) (depth : Int)
    (hA : (dictKeys (flatten_dict A depth [])).Nodup)
    (hB : (dictKeys (flatten_dict B depth [])).Nodup) :
    perform_core A B "union".toList "keys".toList depth =
      perform_core A B "union".toList "kv".toList depth := by
  have hk : perform_core A B "union".toList "keys".toList depth =
      buildResult (pyUnion (setList (dictKeys (flatten_dict A depth [])))
        (setList (dictKeys (flatten_dict B depth []))))
        (flatten_dict A depth []) (flatten_dict B depth []) := by
    simp only [perform_core, if_true]
  have hv : perform_core A B "union".toList "kv".toList depth =
      buildResolve (pyUnion (setList (itemsOf (flatten_dict A depth [])))
        (setList (itemsOf (flatten_dict B depth []))))
        (flatten_dict A depth []) (flatten_dict B depth []) := by
    simp only [perform_core]
    rw [if_neg (show ¬("kv".toList = "keys".toList) from by decide)]
    simp only [if_true]
  rw [hk, hv, buildResult_eq, buildResolve_eq, union_keys_eq _ _ hA hB]


theorem mem_pyUnion [DecidableEq α] {s t : List α} {x : α} (h : x ∈ pyUnion s t) :
    x ∈ s ∨ x ∈ t := by
  rw [pyUnion, List.mem_append] at h
  rcases h with h | h
  · exact Or.inl h
  · exact Or.inr (List.mem_of_mem_filter h)

theorem mem_pyInter [DecidableEq α] {s t : List α} {x : α} (h : x ∈ pyInter s t) :
    x ∈ s := List.mem_of_mem_filter h

theorem mem_pyDiff [DecidableEq α] {s t : List α} {x : α} (h : x ∈ pyDiff s t) :
    x ∈ s := List.mem_of_mem_filter h

theorem mem_pySymdiff [DecidableEq α] {s t : List α} {x : α} (h : x ∈ pySymdiff s t) :
    x ∈ s ∨ x ∈ t := by
  rw [pySymdiff, List.mem_append] at h
  rcases h with h | h
  · exact Or.inl (mem_pyDiff h)
  · exact Or.inr (mem_pyDiff h)

theorem mem_setList_items_fst {flat : Dict} {p : Str × HValue}
    (h : p ∈ setList (itemsOf flat)) : p.1 ∈ dictKeys flat := by
  rw [mem_setList] at h
  rw [← itemsOf_fst]
  exact List.mem_map_of_mem _ h

/-- Every key of the core result comes from one of the two flattened
inputs: the result never leaves flat-key form before the unflatten step. -/
theorem mem_keys_perform_core (A B : Dict) (op mode : Str) (depth : Int) (k : Str)
    (h : k ∈ dictKeys (perform_core A B op mode depth)) :
    k ∈ dictKeys (flatten_dict A depth []) ∨ k ∈ dictKeys (flatten_dict B depth []) := by
  simp only [perform_core] at h
  by_cases hm : mode = "keys".toList
  · rw [if_pos hm, buildResult_eq, dictKeys_map_keys, mem_setList] at h
    by_cases h1 : op = "union".toList
    · rw [if_pos h1] at h
      rcases mem_pyUnion h with h2 | h2
      · exact Or.inl (mem_setList.1 h2)
      · exact Or.inr (mem_setList.1 h2)
    · rw [if_neg h1] at h
      by_cases h2 : op = "intersect".toList
      · rw [if_pos h2] at h
        exact Or.inl (mem_setList.1 (mem_pyInter h))
      · rw [if_neg h2] at h
        by_cases h3 : op = "diff".toList
        · rw [if_pos h3] at h
          exact Or.inl (mem_setList.1 (mem_pyDiff h))
        · rw [if_neg h3] at h
          by_cases h4 : op = "rdiff".toList
          · rw [if_pos h4] at h
            exact Or.inr (mem_setList.1 (mem_pyDiff h))
          · rw [if_neg h4] at h
            by_cases h5 : op = "symdiff".toList
            · rw [if_pos h5] at h
              rcases mem_pySymdiff h with h6 | h6
              · exact Or.inl (mem_setList.1 h6)
              · exact Or.inr (mem_setList.1 h6)
            · rw [if_neg h5] at h
              exact absurd h (List.not_mem_nil k)
  · rw [if_neg hm] at h
    by_cases h1 : op = "union".toList
    · rw [if_pos h1, buildResolve_eq, dictKeys_map_keys, mem_setList] at h
      obtain ⟨p, hp, hpk⟩ := List.mem_map.1 h
      subst hpk
      rcases mem_pyUnion hp with h2 | h2
      · exact Or.inl (mem_setList_items_fst h2)
      · exact Or.inr (mem_setList_items_fst h2)
    · rw [if_neg h1] at h
      by_cases h2 : op = "intersect".toList
      · rw [if_pos h2, buildFrom_eq, dictKeys_map_keys, mem_setList] at h
        obtain ⟨p, hp, hpk⟩ := List.mem_map.1 h
        subst hpk
        exact Or.inl (mem_setList_items_fst (mem_pyInter hp))
      · rw [if_neg h2] at h
        by_cases h3 : op = "diff".toList
        · rw [if_pos h3, buildFrom_eq, dictKeys_map_keys, mem_setList] at h
          obtain ⟨p, hp, hpk⟩ := List.mem_map.1 h
          subst hpk
          exact Or.inl (mem_setList_items_fst (mem_pyDiff hp))
        · rw [if_neg h3] at h
          by_cases h4 : op = "rdiff".toList
          · rw [if_pos h4, buildFrom_eq, dictKeys_map_keys, mem_setList] at h
            obtain ⟨p, hp, hpk⟩ := List.mem_map.1 h
            subst hpk
            exact Or.inr (mem_setList_items_fst (mem_pyDiff hp))
          · rw [if_neg h4] at h
            by_cases h5 : op = "symdiff".toList
            · rw [if_pos h5, buildResolve_eq, dictKeys_map_keys, mem_setList] at h
              obtain ⟨p, hp, hpk⟩ := List.mem_map.1 h
              subst hpk
              rcases mem_pySymdiff hp with h6 | h6
              · exact Or.inl (mem_setList_items_fst h6)
              · exact Or.inr (mem_setList_items_fst h6)
            · rw [if_neg h5] at h
              exact absurd h (List.not_mem_nil k)

/-- An operation outside the enumerated five produces the empty dict from
the core, in both compare modes. -/
theorem perform_core_unknown_op (A B : Dict) (op mode : Str) (depth : Int)
    (h : op ∉ [("union".toList : Str), "intersect".toList, "diff".toList,
      "rdiff".toList, "symdiff".toList]) :
    perform_core A B op mode depth = [] := by
  simp only [List.mem_cons, List.not_mem_nil, or_false, not_or] at h
  obtain ⟨h1, h2, h3, h4, h5⟩ := h
  simp only [perform_core]
  by_cases hm : mode = "keys".toList
  · rw [if_pos hm, if_neg h1, if_neg h2, if_neg h3, if_neg h4, if_neg h5]
    rfl
  · rw [if_neg hm, if_neg h1, if_neg h2, if_neg h3, if_neg h4, if_neg h5]


theorem pyUnion_mem_iff [DecidableEq α] {s t : List α} {x : α} :
    x ∈ pyUnion s t ↔ x ∈ s ∨ x ∈ t := by
  simp only [pyUnion, List.mem_append, List.mem_filter, decide_eq_true_eq]
  tauto

/-! ### The claims -/

/-- C1: flattening at unlimited depth followed by unflattening is the
identity on documents whose mapping keys are separator-free — amended to
also require every key non-empty (the empty string defeats the
`if parent_key` test) and, as Python dicts guarantee, duplicate-free keys
at every level.  Empty-mapping values need no exclusion: they survive the
round trip as direct bindings. -/
theorem C1_flatten_unflatten_roundtrip (d : Dict) (hsf : sepFreeE d = true)
    (hk : (dictKeys d).Nodup) (he : nodupKeysE d = true) :
    unflatten_dict (flatten_dict d 0 []) = some d :=
  flatten_unflatten_id d 0 hsf hk he

/-- Witness for C1 on a concrete nested document. -/
theorem C1_roundtrip_witness :
    unflatten_dict (flatten_dict [("a".toList, Value.dict [("b".toList, Value.int 1)]),
      ("c".toList, Value.int 2)] 0 []) =
      some [("a".toList, Value.dict [("b".toList, Value.int 1)]),
        ("c".toList, Value.int 2)] :=
  C1_flatten_unflatten_roundtrip _ (by decide) (by decide) (by decide)

/-- Counterexample to C1 as stated: the document `{"": {"b": 1}}` has no
separator character in any key and no empty mappings, yet the round trip
loses the empty-keyed level, because `if parent_key` is falsy on the empty
string. -/
theorem C1_empty_key_breaks_roundtrip :
    ('.' ∉ ([] : Str)) ∧ ('.' ∉ "b".toList) ∧
    unflatten_dict (flatten_dict
      [(([] : Str), Value.dict [("b".toList, Value.int 1)])] 0 []) =
      some [("b".toList, Value.int 1)] := by decide

/-- C2: outside the depth-1 shortcut, the flatten loop binds each visited
key according to the three-way rule captured by `flatEntryD` (truncate at
the depth limit, recurse into non-empty mappings, bind scalars, lists and
empty mappings directly), replaying the emitted entries onto an empty
accumulator. -/
theorem C2_flatten_walk (data : Dict) (depth : Int) (p : Str)
    (h : ¬(depth = 1 ∧ p = [])) :
    flatten_dict data depth p = dictUpdate [] (flatListD data depth p) := by
  rw [flatten_dict, if_neg h, flatten_items_eq data depth p [] (by simp)]

/-- Witness for C2 on a concrete nested document at unlimited depth. -/
theorem C2_flatten_walk_witness :
    ¬((0 : Int) = 1 ∧ ([] : Str) = []) ∧
    flatten_dict [("a".toList, Value.dict [("b".toList, Value.int 1)])] 0 [] =
      dictUpdate []
        (flatListD [("a".toList, Value.dict [("b".toList, Value.int 1)])] 0 []) :=
  ⟨by decide, C2_flatten_walk _ 0 [] (by decide)⟩

/-- C3 (amended): an operation outside the enumerated five yields the
empty result, with no error, whatever the compare mode and depth.  An
unknown compare mode is not empty: it takes the kv branch (see the
counterexample). -/
theorem C3_unknown_operation_empty (A B : Dict) (op mode : Str) (depth : Int)
    (h : op ∉ [("union".toList : Str), "intersect".toList, "diff".toList,
      "rdiff".toList, "symdiff".toList]) :
    perform_set_operation A B op mode depth = some [] := by
  have hc := perform_core_unknown_op A B op mode depth h
  simp only [perform_set_operation, hc]
  split
  · rfl
  · rfl

/-- Witness for C3 with a made-up operation name. -/
theorem C3_unknown_operation_witness :
    ("frobnicate".toList ∉ [("union".toList : Str), "intersect".toList,
      "diff".toList, "rdiff".toList, "symdiff".toList]) ∧
    perform_set_operation [("a".toList, Value.int 1)] [] "frobnicate".toList
      "kv".toList 2 = some [] :=
  ⟨by decide, C3_unknown_operation_empty _ _ _ _ 2 (by decide)⟩

/-- Counterexample to C3 as stated: a compare mode outside {keys, kv} does
not produce an empty result — the `if/else` sends every non-"keys" mode
into the kv branch, which here returns the whole left document. -/
theorem C3_unknown_mode_takes_kv_branch :
    perform_set_operation [("a".toList, Value.int 1)] [] "union".toList
      "bogus".toList 1 = some [("a".toList, Value.int 1)] := by decide

/-- C4 (amended): a truthy non-mapping root is a fatal load error, but a
falsy non-mapping root (empty list, false, 0, null, empty string) is
silently coerced to the empty mapping by `yaml.safe_load(f) or {}` and
accepted. -/
theorem C4_nonmapping_root (v : Value) (hd : ∀ d, v ≠ Value.dict d) :
    load_yaml_file (some v) =
      if pyTruthy v then Except.error () else Except.ok [] := by
  cases v with
  | dict d => exact absurd rfl (hd d)
  | null => cases hb : pyTruthy Value.null <;> simp [load_yaml_file, pyTruthy] at hb ⊢
  | bool b => cases b <;> rfl
  | int n =>
    cases hb : pyTruthy (Value.int n) <;> simp [load_yaml_file, hb]
  | str s =>
    cases hb : pyTruthy (Value.str s) <;> simp [load_yaml_file, hb]
  | list xs =>
    cases hb : pyTruthy (Value.list xs) <;> simp [load_yaml_file, hb]

/-- Witness for C4: a truthy list root is rejected. -/
theorem C4_nonmapping_root_witness :
    (∀ d, Value.list [Value.int 1] ≠ Value.dict d) ∧
    load_yaml_file (some (Value.list [Value.int 1])) =
      if pyTruthy (Value.list [Value.int 1]) then Except.error ()
      else Except.ok [] :=
  ⟨fun _ h => Value.noConfusion h,
   C4_nonmapping_root _ (fun _ h => Value.noConfusion h)⟩

/-- Counterexample to C4 as stated: two non-mapping roots that load
without any error, coerced to the empty mapping. -/
theorem C4_falsy_root_coerced :
    load_yaml_file (some (Value.list [])) = Except.ok [] ∧
    load_yaml_file (some (Value.bool false)) = Except.ok [] := ⟨rfl, rfl⟩

/-- C5 (amended): union with the empty document on the left returns the
other document unchanged for every compare mode at every depth ≥ 1, on
well-formed documents (non-empty separator-free keys, duplicate-free keys
at every level).  At depth ≤ 0 the result is the flattened form of B, not
B (see the counterexample). -/
theorem C5_union_empty_identity (B : Dict) (mode : Str) (depth : Int)
    (hd : 1 ≤ depth) (hsf : sepFreeE B = true) (hk : (dictKeys B).Nodup)
    (he : nodupKeysE B = true) :
    perform_set_operation [] B "union".toList mode depth = some B := by
  have hBn := flatten_dict_keysNodup B depth hk
  have hc := perform_core_union_nil_left B mode depth hBn
  simp only [perform_set_operation, hc]
  by_cases h1 : depth > 1
  · rw [if_pos h1]
    exact flatten_unflatten_id B depth hsf hk he
  · rw [if_neg h1]
    have hdep : depth = 1 := by omega
    subst hdep
    rw [flatten_dict, if_pos ⟨rfl, rfl⟩]

/-- Witness for C5 at depth 2 in kv mode. -/
theorem C5_union_empty_identity_witness :
    (1 : Int) ≤ 2 ∧
    perform_set_operation [] [("a".toList, Value.dict [("b".toList, Value.int 1)])]
      "union".toList "kv".toList 2 =
      some [("a".toList, Value.dict [("b".toList, Value.int 1)])] :=
  ⟨by decide, C5_union_empty_identity _ _ 2 (by decide) (by decide) (by decide)
    (by decide)⟩

/-- Counterexample to C5 as stated: at depth 0 the union with `{}` returns
the flattened form of B rather than B itself, and at depth 2 a key that
already contains the separator is re-nested, so B is not returned
unchanged at every depth even for depth > 1. -/
theorem C5_union_empty_not_identity :
    perform_set_operation [] [("a".toList, Value.dict [("b".toList, Value.int 1)])]
      "union".toList "kv".toList 0 = some [("a.b".toList, Value.int 1)] ∧
    perform_set_operation [] [("a.b".toList, Value.int 1)]
      "union".toList "kv".toList 2 =
      some [("a".toList, Value.dict [("b".toList, Value.int 1)])] := by decide

/-- C7: at depth 1 flatten returns the mapping unchanged (the model has no
object identity, so the copy-not-alias half of the sentence is outside
it). -/
theorem C7_depth_one_identity (d : Dict) : flatten_dict d 1 [] = d := by
  rw [flatten_dict, if_pos ⟨rfl, rfl⟩]

/-- C8: at depth 0 the unflatten step is skipped — the returned mapping is
the core result itself, every key of which is a key of one of the two
flattened ('.'-joined) inputs. -/
theorem C8_depth_zero_stays_flat (A B : Dict) (op mode : Str) :
    perform_set_operation A B op mode 0 = some (perform_core A B op mode 0) ∧
    ∀ k ∈ dictKeys (perform_core A B op mode 0),
      k ∈ dictKeys (flatten_dict A 0 []) ∨ k ∈ dictKeys (flatten_dict B 0 []) := by
  constructor
  · simp only [perform_set_operation]
    rw [if_neg (by omega)]
  · intro k hk
    exact mem_keys_perform_core A B op mode 0 k hk

/-- Witness for C8 on a nested document: the depth-0 result keeps the
joined key. -/
theorem C8_depth_zero_stays_flat_witness :
    perform_set_operation [("a".toList, Value.dict [("b".toList, Value.int 1)])] []
      "union".toList "kv".toList 0 =
      some (perform_core [("a".toList, Value.dict [("b".toList, Value.int 1)])] []
        "union".toList "kv".toList 0) ∧
    ∀ k ∈ dictKeys (perform_core
        [("a".toList, Value.dict [("b".toList, Value.int 1)])] []
        "union".toList "kv".toList 0),
      k ∈ dictKeys (flatten_dict
        [("a".toList, Value.dict [("b".toList, Value.int 1)])] 0 []) ∨
      k ∈ dictKeys (flatten_dict [] 0 []) :=
  C8_depth_zero_stays_flat _ _ _ _


/-- C6 (amended): at depth ≤ 1, where the unflatten step is skipped, both
intersect calls succeed, their key sets agree, and under every non-"keys"
compare mode (the kv branch) the values at a common key have equal
canonical (`make_hashable`) forms.  At depth > 1 the claim fails: the
unflatten step can raise on one argument order and not the other (see the
counterexample). -/
theorem C6_intersect_comm_shallow (A B : Dict) (mode : Str) (depth : Int)
    (hd : depth ≤ 1) (hA : (dictKeys A).Nodup) (hB : (dictKeys B).Nodup) :
    ∃ r1 r2,
      perform_set_operation A B "intersect".toList mode depth = some r1 ∧
      perform_set_operation B A "intersect".toList mode depth = some r2 ∧
      (∀ k, k ∈ dictKeys r1 ↔ k ∈ dictKeys r2) ∧
      (mode ≠ "keys".toList → ∀ k v1 v2, pyLookup r1 k = some v1 →
        pyLookup r2 k = some v2 → make_hashable v1 = make_hashable v2) := by
  have hnd1 := flatten_dict_keysNodup A depth hA
  have hnd2 := flatten_dict_keysNodup B depth hB
  have hcomm := perform_core_intersect_comm A B mode depth hnd1 hnd2
  refine ⟨perform_core A B "intersect".toList mode depth,
    perform_core B A "intersect".toList mode depth, ?_, ?_, hcomm.1, hcomm.2⟩
  · simp only [perform_set_operation]
    rw [if_neg (by omega)]
  · simp only [perform_set_operation]
    rw [if_neg (by omega)]

/-- Witness for C6 at the default depth 1 in kv mode. -/
theorem C6_intersect_comm_witness :
    ∃ r1 r2,
      perform_set_operation [("a".toList, Value.int 1)]
        [("a".toList, Value.int 1), ("b".toList, Value.int 2)]
        "intersect".toList "kv".toList 1 = some r1 ∧
      perform_set_operation [("a".toList, Value.int 1), ("b".toList, Value.int 2)]
        [("a".toList, Value.int 1)]
        "intersect".toList "kv".toList 1 = some r2 ∧
      (∀ k, k ∈ dictKeys r1 ↔ k ∈ dictKeys r2) ∧
      ("kv".toList ≠ "keys".toList → ∀ k v1 v2, pyLookup r1 k = some v1 →
        pyLookup r2 k = some v2 → make_hashable v1 = make_hashable v2) :=
  C6_intersect_comm_shallow _ _ _ 1 (by decide) (by decide) (by decide)

/-- Counterexample to C6 as stated: at depth 2 in keys mode, one argument
order crashes in the unflatten step (a truncated scalar blocks the path of
a deeper key) while the other succeeds, so the two results do not even
share a key set. -/
theorem C6_intersect_crash_asymmetry :
    perform_set_operation [("a".toList, Value.int 1), ("a.b".toList, Value.int 2)]
      [("a".toList, Value.dict []), ("a.b".toList, Value.int 2)]
      "intersect".toList "keys".toList 2 = none ∧
    perform_set_operation [("a".toList, Value.dict []), ("a.b".toList, Value.int 2)]
      [("a".toList, Value.int 1), ("a.b".toList, Value.int 2)]
      "intersect".toList "keys".toList 2 =
      some [("a".toList, Value.dict [("b".toList, Value.int 2)])] := by decide

/-- C9: union computes the same result under keys mode and kv mode — the
same dict, entry for entry — and that result binds exactly the keys of the
two flattened inputs, each to the left value when present and the right
value otherwise. -/
theorem C9_union_modes_agree (A B : Dict) (depth : Int)
    (hA : (dictKeys A).Nodup) (hB : (dictKeys B).Nodup) :
    perform_set_operation A B "union".toList "keys".toList depth =
      perform_set_operation A B "union".toList "kv".toList depth ∧
    ∀ k, pyLookup (perform_core A B "union".toList "keys".toList depth) k =
      if k ∈ dictKeys (flatten_dict A depth []) ∨
          k ∈ dictKeys (flatten_dict B depth []) then
        some (resolveKey (flatten_dict A depth []) (flatten_dict B depth []) k)
      else none := by
  have hnd1 := flatten_dict_keysNodup A depth hA
  have hnd2 := flatten_dict_keysNodup B depth hB
  have hc := perform_core_union_modes A B depth hnd1 hnd2
  constructor
  · simp only [perform_set_operation, hc]
  · intro k
    have hkred : perform_core A B "union".toList "keys".toList depth =
        buildResult (pyUnion (setList (dictKeys (flatten_dict A depth [])))
          (setList (dictKeys (flatten_dict B depth []))))
          (flatten_dict A depth []) (flatten_dict B depth []) := by
      simp only [perform_core, if_true]
    rw [hkred, buildResult_eq, pyLookup_map_keys]
    have hiff : k ∈ setList (pyUnion (setList (dictKeys (flatten_dict A depth [])))
        (setList (dictKeys (flatten_dict B depth [])))) ↔
        (k ∈ dictKeys (flatten_dict A depth []) ∨
          k ∈ dictKeys (flatten_dict B depth [])) := by
      rw [mem_setList, pyUnion_mem_iff, mem_setList, mem_setList]
    by_cases hmem : k ∈ dictKeys (flatten_dict A depth []) ∨
        k ∈ dictKeys (flatten_dict B depth [])
    · rw [if_pos (hiff.2 hmem), if_pos hmem]
    · rw [if_neg (fun h => hmem (hiff.1 h)), if_neg hmem]

/-- Witness for C9 on concrete documents with a conflicting key. -/
theorem C9_union_modes_agree_witness :
    perform_set_operation [("a".toList, Value.int 1)]
      [("a".toList, Value.int 2), ("b".toList, Value.int 3)]
      "union".toList "keys".toList 1 =
      perform_set_operation [("a".toList, Value.int 1)]
        [("a".toList, Value.int 2), ("b".toList, Value.int 3)]
        "union".toList "kv".toList 1 ∧
    ∀ k, pyLookup (perform_core [("a".toList, Value.int 1)]
        [("a".toList, Value.int 2), ("b".toList, Value.int 3)]
        "union".toList "keys".toList 1) k =
      if k ∈ dictKeys (flatten_dict [("a".toList, Value.int 1)] 1 []) ∨
          k ∈ dictKeys (flatten_dict
            [("a".toList, Value.int 2), ("b".toList, Value.int 3)] 1 []) then
        some (resolveKey (flatten_dict [("a".toList, Value.int 1)] 1 [])
          (flatten_dict [("a".toList, Value.int 2), ("b".toList, Value.int 3)] 1 []) k)
      else none :=
  C9_union_modes_agree _ _ 1 (by decide) (by decide)

/-- C10: unflatten succeeds on every flat dict whose keys are distinct and
whose segment paths are not proper prefixes of one another; and on a
conflicting flat map — a scalar bound at 'a' before a key 'a.b' extending
it — it fails (a TypeError in the source) instead of resolving the
conflict. -/
theorem C10_unflatten_totality :
    (∀ data : Dict, (dictKeys data).Nodup →
      (data.map (fun e => splitSep e.1)).Pairwise
        (fun p q => (segPre p q = true → p = q) ∧ (segPre q p = true → q = p)) →
      ∃ r, unflatten_dict data = some r) ∧
    unflatten_dict [("a".toList, Value.int 1), ("a.b".toList, Value.int 2)] =
      none := by
  constructor
  · intro data hnd hpre
    have hnn : NonNilPaths (data.map (fun e => (splitSep e.1, e.2))) := by
      intro e he
      obtain ⟨kv, _, heq⟩ := List.mem_map.1 he
      rw [← heq]
      exact splitSep_ne_nil kv.1
    have hkeys : data.Pairwise (fun a b => a.1 ≠ b.1) := by
      have h2 : (data.map (fun e : Str × Value => e.1)).Pairwise (fun a b => a ≠ b) := hnd
      rwa [List.pairwise_map] at h2
    have hpre2 : data.Pairwise (fun a b =>
        (segPre (splitSep a.1) (splitSep b.1) = true → splitSep a.1 = splitSep b.1) ∧
        (segPre (splitSep b.1) (splitSep a.1) = true → splitSep b.1 = splitSep a.1)) := by
      rwa [List.pairwise_map] at hpre
    have hind : IndepPaths (data.map (fun e => (splitSep e.1, e.2))) := by
      rw [IndepPaths, List.pairwise_map]
      refine List.Pairwise.imp ?_ (hpre2.and hkeys)
      intro a b hab
      obtain ⟨⟨hp1, hp2⟩, hkne⟩ := hab
      constructor
      · cases hsp : segPre (splitSep a.1) (splitSep b.1) with
        | false => rfl
        | true => exact absurd (splitSep_inj (hp1 hsp)) hkne
      · cases hsp : segPre (splitSep b.1) (splitSep a.1) with
        | false => rfl
        | true => exact absurd (splitSep_inj (hp2 hsp)).symm hkne
    refine ⟨buildCanon (data.map (fun e => (splitSep e.1, e.2))), ?_⟩
    rw [unflatten_dict_eq_unflattenSegs]
    exact unflattenSegs_eq_buildCanon hnn hind
  · decide

/-- Witness for C10 on a concrete prefix-free flat map. -/
theorem C10_unflatten_totality_witness :
    ∃ r, unflatten_dict [("a.b".toList, Value.int 1), ("a.c".toList, Value.int 2),
      ("d".toList, Value.int 3)] = some r :=
  C10_unflatten_totality.1 _ (by decide) (by decide)

end CfgUtils
